/- Verification development for the technical-analysis engine of the
   a-share-analyst repository (scripts/technical_analysis.py).

   The engine is a pure pipeline from an OHLCV bar series to an analysis
   bundle.  We embed it shallowly: pandas float series become lists over a
   small float model `PF` (not-a-number, signed infinities, and exact
   rationals), pandas rolling/ewm/diff/shift/fillna become explicit list
   operations with the same semantics (rolling windows with
   min_periods = window, NaN-poisoned windows, IEEE comparison and
   arithmetic rules for NaN and infinity), and `iloc` indexing that can
   raise becomes `Option`.  The square root used by the Bollinger standard
   deviation is abstracted as a parameter `sf : ℚ → ℚ` (no claim depends on
   the numeric value of the bands, only on their definedness). -/
import Mathlib

/-- Float model for the pandas/numpy values flowing through the engine:
not-a-number, the two infinities, and finite values modelled as exact
rationals. -/
inductive PF where
  | nan : PF
  | inf : PF
  | ninf : PF
  | num : ℚ → PF
deriving DecidableEq, Repr

/-- IEEE-style strict less-than as a Bool: any comparison with NaN is false. -/
def PF.ltb : PF → PF → Bool
  | PF.nan, _ => false
  | _, PF.nan => false
  | PF.ninf, PF.ninf => false
  | PF.ninf, _ => true
  | _, PF.ninf => false
  | PF.inf, _ => false
  | PF.num _, PF.inf => true
  | PF.num a, PF.num b => decide (a < b)

/-- IEEE-style less-or-equal as a Bool: any comparison with NaN is false. -/
def PF.leb : PF → PF → Bool
  | PF.nan, _ => false
  | _, PF.nan => false
  | PF.ninf, _ => true
  | _, PF.ninf => false
  | PF.inf, PF.inf => true
  | PF.inf, PF.num _ => false
  | PF.num _, PF.inf => true
  | PF.num a, PF.num b => decide (a ≤ b)

/-- Strict greater-than, as used by the Python comparisons. -/
def PF.gtb (a b : PF) : Bool := PF.ltb b a

/-- Greater-or-equal, as used by the Python comparisons. -/
def PF.geb (a b : PF) : Bool := PF.leb b a

/-- IEEE addition: NaN propagates, opposite infinities give NaN. -/
def PF.add : PF → PF → PF
  | PF.nan, _ => PF.nan
  | _, PF.nan => PF.nan
  | PF.inf, PF.ninf => PF.nan
  | PF.ninf, PF.inf => PF.nan
  | PF.inf, _ => PF.inf
  | _, PF.inf => PF.inf
  | PF.ninf, _ => PF.ninf
  | _, PF.ninf => PF.ninf
  | PF.num a, PF.num b => PF.num (a + b)

/-- IEEE negation. -/
def PF.neg : PF → PF
  | PF.nan => PF.nan
  | PF.inf => PF.ninf
  | PF.ninf => PF.inf
  | PF.num a => PF.num (-a)

/-- IEEE subtraction, as addition of the negation. -/
def PF.sub (a b : PF) : PF := PF.add a (PF.neg b)

/-- IEEE multiplication: NaN propagates, infinity times zero is NaN. -/
def PF.mul : PF → PF → PF
  | PF.nan, _ => PF.nan
  | _, PF.nan => PF.nan
  | PF.inf, PF.inf => PF.inf
  | PF.inf, PF.ninf => PF.ninf
  | PF.ninf, PF.inf => PF.ninf
  | PF.ninf, PF.ninf => PF.inf
  | PF.inf, PF.num b => if b < 0 then PF.ninf else if b = 0 then PF.nan else PF.inf
  | PF.num a, PF.inf => if a < 0 then PF.ninf else if a = 0 then PF.nan else PF.inf
  | PF.ninf, PF.num b => if b < 0 then PF.inf else if b = 0 then PF.nan else PF.ninf
  | PF.num a, PF.ninf => if a < 0 then PF.inf else if a = 0 then PF.nan else PF.ninf
  | PF.num a, PF.num b => PF.num (a * b)

/-- numpy float division: NaN propagates, x/0 is a signed infinity for
x ≠ 0 and NaN for 0/0, finite/infinite is zero, infinite/infinite is NaN. -/
def PF.div : PF → PF → PF
  | PF.nan, _ => PF.nan
  | _, PF.nan => PF.nan
  | PF.inf, PF.inf => PF.nan
  | PF.inf, PF.ninf => PF.nan
  | PF.ninf, PF.inf => PF.nan
  | PF.ninf, PF.ninf => PF.nan
  | PF.inf, PF.num b => if b < 0 then PF.ninf else PF.inf
  | PF.ninf, PF.num b => if b < 0 then PF.inf else PF.ninf
  | PF.num _, PF.inf => PF.num 0
  | PF.num _, PF.ninf => PF.num 0
  | PF.num a, PF.num b =>
      if b = 0 then (if a = 0 then PF.nan else if a < 0 then PF.ninf else PF.inf)
      else PF.num (a / b)

/-- IEEE absolute value. -/
def PF.abs : PF → PF
  | PF.nan => PF.nan
  | PF.inf => PF.inf
  | PF.ninf => PF.inf
  | PF.num a => PF.num |a|

/-- A value is a finite number (neither NaN nor infinite). -/
def PF.isNum : PF → Bool
  | PF.num _ => true
  | _ => false

/-- Row-wise maximum with skipna=True semantics, as used by
`pd.concat([...]).max(axis=1)`: a NaN operand is ignored. -/
def maxSkipNan (a b : PF) : PF :=
  if a = PF.nan then b else if b = PF.nan then a else if PF.ltb a b then b else a

/-- Substring test on character lists: does the needle occur at the front? -/
def beginsWith : List Char → List Char → Bool
  | _, [] => true
  | [], _ :: _ => false
  | a :: as, b :: bs => a == b && beginsWith as bs

/-- Substring containment on character lists. -/
def containsSub (hay needle : List Char) : Bool :=
  match hay with
  | [] => beginsWith [] needle
  | _ :: t => beginsWith hay needle || containsSub t needle

/-- Python's substring operator `needle in hay`. -/
def strHas (hay needle : String) : Bool := containsSub hay.data needle.data

/-- Positional indexing from the back, `series.iloc[-k]`: `none` models the
IndexError raised when the series is too short. -/
def ilocBack (xs : List PF) (k : ℕ) : Option PF :=
  if 1 ≤ k ∧ k ≤ xs.length then xs.get? (xs.length - k) else none

/-- The trailing window of length `n` ending at position `i` (for a filled
window, i.e. `n ≤ i + 1`). -/
def windowAt (xs : List PF) (n i : ℕ) : List PF :=
  (xs.take (i + 1)).drop (i + 1 - n)

/-- Collect the finite values of a window; `none` if any entry is not a
finite number.  (In this pipeline rolling inputs are finite or NaN, never
infinite, so treating a non-finite entry like NaN is exact.) -/
def allNum? : List PF → Option (List ℚ)
  | [] => some []
  | PF.num q :: t => (allNum? t).map (fun qs => q :: qs)
  | _ :: _ => none

/-- Value of a rolling statistic on one window: NaN when the window
contains a NaN (pandas min_periods = window), otherwise `f` applied to the
finite values. -/
def winVal (f : List ℚ → ℚ) (w : List PF) : PF :=
  match allNum? w with
  | some qs => PF.num (f qs)
  | none => PF.nan

/-- pandas `series.rolling(window=n)` aggregated by `f`: positions before
the window has filled are NaN, as are positions whose window contains NaN. -/
def rollingOp (f : List ℚ → ℚ) (n : ℕ) (xs : List PF) : List PF :=
  (List.range xs.length).map
    (fun i => if i + 1 < n then PF.nan else winVal f (windowAt xs n i))

/-- Minimum of a list of rationals (0 on the empty list, never reached for
a filled window). -/
def listMinQ : List ℚ → ℚ
  | [] => 0
  | h :: t => t.foldl min h

/-- Maximum of a list of rationals. -/
def listMaxQ : List ℚ → ℚ
  | [] => 0
  | h :: t => t.foldl max h

/-- Arithmetic mean of a list of rationals. -/
def meanQ (qs : List ℚ) : ℚ := qs.sum / (qs.length : ℚ)

/-- Sample variance (ddof = 1), as used by pandas rolling std. -/
def sampleVar (qs : List ℚ) : ℚ :=
  ((qs.map (fun x => (x - meanQ qs) ^ 2)).sum) / ((qs.length : ℚ) - 1)

/-- pandas `rolling(n).mean()`. -/
def rollingMean (n : ℕ) (xs : List PF) : List PF := rollingOp meanQ n xs

/-- pandas `rolling(n).min()`. -/
def rollingMin (n : ℕ) (xs : List PF) : List PF := rollingOp listMinQ n xs

/-- pandas `rolling(n).max()`. -/
def rollingMax (n : ℕ) (xs : List PF) : List PF := rollingOp listMaxQ n xs

/-- pandas `rolling(n).std()` (sample standard deviation); the square root
is the abstract parameter `sf`.  (Only used with n = 20, so the ddof
denominator is never zero.) -/
def rollingStd (sf : ℚ → ℚ) (n : ℕ) (xs : List PF) : List PF :=
  rollingOp (fun qs => sf (sampleVar qs)) n xs

/-- Recursive step of `ewm(..., adjust=False).mean()`:
y[t] = (1-α)·y[t-1] + α·x[t].  (In this module every ewm input is fully
defined, so NaN handling inside the recursion is never exercised.) -/
def ewmRec (α : ℚ) (prev : PF) : List PF → List PF
  | [] => []
  | x :: t =>
      let y := PF.add (PF.mul (PF.num (1 - α)) prev) (PF.mul (PF.num α) x)
      y :: ewmRec α y t

/-- pandas `ewm(..., adjust=False).mean()` with smoothing factor α:
y[0] = x[0]. -/
def ewmAlpha (α : ℚ) : List PF → List PF
  | [] => []
  | x :: t => x :: ewmRec α x t

/-- pandas `ewm(span=s, adjust=False).mean()`: α = 2/(s+1). -/
def ewmSpan (s : ℚ) (xs : List PF) : List PF := ewmAlpha (2 / (s + 1)) xs

/-- pandas `ewm(com=c, adjust=False).mean()`: α = 1/(1+c). -/
def ewmCom (c : ℚ) (xs : List PF) : List PF := ewmAlpha (1 / (1 + c)) xs

/-- pandas `series.diff()`: first position NaN, then successive
differences. -/
def diffL (xs : List PF) : List PF := List.zipWith PF.sub xs (PF.nan :: xs)

/-- pandas `series.shift(1)`: NaN prepended, last value dropped. -/
def shift1 (xs : List PF) : List PF := (PF.nan :: xs).take xs.length

/-- pandas `series.fillna(v)`. -/
def fillna (v : ℚ) (xs : List PF) : List PF :=
  xs.map (fun x => if x = PF.nan then PF.num v else x)

/-- Banker's rounding of a rational to an integer, the rounding Python's
`round` and float formatting use. -/
def roundHalfEven (x : ℚ) : ℤ :=
  let f := ⌊x⌋
  let r := x - (f : ℚ)
  if r < 1 / 2 then f else if 1 / 2 < r then f + 1 else if f % 2 = 0 then f else f + 1

/-- Python `round(x, d)` on the float model; NaN and infinities pass
through (as in CPython's two-argument round on floats). -/
def pyRound (d : ℕ) : PF → PF
  | PF.num q => PF.num ((roundHalfEven (q * (10 : ℚ) ^ d) : ℚ) / (10 : ℚ) ^ d)
  | x => x

/-- Formatting of a rational with one decimal digit, as in `f"{x:.1f}"`. -/
def fmtQ1 (q : ℚ) : String :=
  let t := roundHalfEven (q * 10)
  let n := t.natAbs
  let core := toString (n / 10) ++ "." ++ toString (n % 10)
  if t < 0 then "-" ++ core else core

/-- Formatting of a model float with one decimal digit, as in
`f"{x:.1f}"`: NaN prints as "nan". -/
def fmtF1 : PF → String
  | PF.nan => "nan"
  | PF.inf => "inf"
  | PF.ninf => "-inf"
  | PF.num q => fmtQ1 q

/- Translations of the functions of scripts/technical_analysis.py.  Names
   follow the source.  Dict results become structures; a signal that the
   source computes by indexing (and that would raise on a too-short series
   outside the guarded cases) is an `Option String`. -/

/-- calc_ma: simple moving averages of `close` for each configured period,
returned as (period, column) pairs mirroring the DataFrame columns. -/
def calc_ma (close : List PF) (periods : List ℕ := [5, 10, 20, 60, 120]) :
    List (ℕ × List PF) :=
  periods.map (fun p => (p, rollingMean p close))

/-- calc_ema: exponential moving average with the given span. -/
def calc_ema (close : List PF) (period : ℚ := 12) : List PF :=
  ewmSpan period close

/-- get_macd_signal: crossover classification of DIF against DEA.  The
four `iloc` accesses of the unguarded branch are bound up front; in the
pipeline DIF and DEA always have equal length, so after the length guard
they all succeed. -/
def get_macd_signal (dif dea : List PF) : Option String :=
  if dif.length < 2 then some "数据不足" else
  match ilocBack dif 1, ilocBack dif 2, ilocBack dea 1, ilocBack dea 2 with
  | some d1, some d2, some e1, some e2 =>
      some (if PF.gtb d1 e1 && PF.leb d2 e2 then "金叉买入"
        else if PF.ltb d1 e1 && PF.geb d2 e2 then "死叉卖出"
        else if PF.gtb d1 e1 then
          (if PF.gtb d1 (PF.num 0) then "多头强势" else "多头初现")
        else
          (if PF.ltb d1 (PF.num 0) then "空头强势" else "空头初现"))
  | _, _, _, _ => none

/-- Result of calc_macd. -/
structure MacdData where
  DIF : List PF
  DEA : List PF
  MACD : List PF
  signal : Option String

/-- calc_macd: DIF = EMA(close,fast) - EMA(close,slow), DEA = EMA(DIF,sig),
bar = (DIF - DEA) * 2, plus the crossover signal. -/
def calc_macd (close : List PF) (fast : ℚ := 12) (slow : ℚ := 26)
    (sig : ℚ := 9) : MacdData :=
  let ema_fast := ewmSpan fast close
  let ema_slow := ewmSpan slow close
  let dif := List.zipWith PF.sub ema_fast ema_slow
  let dea := ewmSpan sig dif
  let macd := (List.zipWith PF.sub dif dea).map (fun x => PF.mul x (PF.num 2))
  ⟨dif, dea, macd, get_macd_signal dif dea⟩

/-- get_kdj_signal: crossover of K against D refined by the level of K. -/
def get_kdj_signal (k d : List PF) : Option String :=
  if k.length < 2 then some "数据不足" else
  match ilocBack k 1, ilocBack k 2, ilocBack d 1, ilocBack d 2 with
  | some k1, some k2, some d1, some d2 =>
      some (if PF.gtb k1 d1 && PF.leb k2 d2 then
          (if PF.ltb k1 (PF.num 20) then "超卖金叉-强买"
           else if PF.ltb k1 (PF.num 50) then "金叉买入"
           else "高位金叉")
        else if PF.ltb k1 d1 && PF.geb k2 d2 then
          (if PF.gtb k1 (PF.num 80) then "超买死叉-强卖"
           else if PF.gtb k1 (PF.num 50) then "死叉卖出"
           else "低位死叉")
        else if PF.gtb k1 (PF.num 80) then "超买区域"
        else if PF.ltb k1 (PF.num 20) then "超卖区域"
        else "中性震荡")
  | _, _, _, _ => none

/-- Result of calc_kdj. -/
structure KdjData where
  K : List PF
  D : List PF
  J : List PF
  signal : Option String

/-- The RSV series of calc_kdj:
RSV = (close - min(low,n)) / (max(high,n) - min(low,n)) * 100, with NaN
filled by 50 (extracted from calc_kdj so claims can speak about it). -/
def kdj_rsv (high low close : List PF) (n : ℕ := 9) : List PF :=
  let low_n := rollingMin n low
  let high_n := rollingMax n high
  let rsv0 := (List.zipWith PF.div (List.zipWith PF.sub close low_n)
      (List.zipWith PF.sub high_n low_n)).map (fun x => PF.mul x (PF.num 100))
  fillna 50 rsv0

/-- calc_kdj: RSV = (close - min(low,n)) / (max(high,n) - min(low,n)) * 100
with NaN filled by 50, K = ewm(RSV, com=m1-1), D = ewm(K, com=m2-1),
J = 3K - 2D. -/
def calc_kdj (high low close : List PF) (n : ℕ := 9) (m1 : ℚ := 3)
    (m2 : ℚ := 3) : KdjData :=
  let rsv := kdj_rsv high low close n
  let k := ewmCom (m1 - 1) rsv
  let d := ewmCom (m2 - 1) k
  let j := List.zipWith PF.sub (k.map (fun x => PF.mul (PF.num 3) x))
      (d.map (fun x => PF.mul (PF.num 2) x))
  ⟨k, d, j, get_kdj_signal k d⟩

/-- get_rsi_signal: overbought/oversold zones of the latest RSI value; the
neutral branch formats the value with one decimal digit. -/
def get_rsi_signal (rsi : List PF) : Option String :=
  if rsi.length < 1 then some "数据不足" else
  match ilocBack rsi 1 with
  | some r =>
      some (if PF.gtb r (PF.num 80) then "严重超买"
        else if PF.gtb r (PF.num 70) then "超买"
        else if PF.ltb r (PF.num 20) then "严重超卖"
        else if PF.ltb r (PF.num 30) then "超卖"
        else "中性(" ++ fmtF1 r ++ ")")
  | none => none

/-- Result of calc_rsi. -/
structure RsiData where
  RSI : List PF
  signal : Option String

/-- calc_rsi: simple rolling means of gains and losses of the close
deltas, RS = gain/loss, RSI = 100 - 100/(1+RS). -/
def calc_rsi (close : List PF) (period : ℕ := 14) : RsiData :=
  let delta := diffL close
  let gain := rollingMean period
      (delta.map (fun x => if PF.gtb x (PF.num 0) then x else PF.num 0))
  let loss := rollingMean period
      ((delta.map (fun x => if PF.ltb x (PF.num 0) then x else PF.num 0)).map PF.neg)
  let rs := List.zipWith PF.div gain loss
  let rsi := rs.map
      (fun r => PF.sub (PF.num 100) (PF.div (PF.num 100) (PF.add (PF.num 1) r)))
  ⟨rsi, get_rsi_signal rsi⟩

/-- get_boll_signal: position of the latest close relative to the bands. -/
def get_boll_signal (close upper mid lower : List PF) : Option String :=
  if close.length < 1 then some "数据不足" else
  match ilocBack close 1, ilocBack upper 1, ilocBack mid 1, ilocBack lower 1 with
  | some price, some u, some m, some l =>
      some (if PF.gtb price u then "突破上轨-超买"
        else if PF.ltb price l then "跌破下轨-超卖"
        else if PF.gtb price m then "中轨上方-偏多"
        else "中轨下方-偏空")
  | _, _, _, _ => none

/-- Result of calc_boll. -/
structure BollData where
  UPPER : List PF
  MID : List PF
  LOWER : List PF
  signal : Option String

/-- calc_boll: MID = rolling mean, bands = MID ± std_dev · rolling std
(square root abstracted as `sf`). -/
def calc_boll (sf : ℚ → ℚ) (close : List PF) (period : ℕ := 20)
    (std_dev : ℚ := 2) : BollData :=
  let mid := rollingMean period close
  let std := rollingStd sf period close
  let upper := List.zipWith PF.add mid (std.map (fun x => PF.mul (PF.num std_dev) x))
  let lower := List.zipWith PF.sub mid (std.map (fun x => PF.mul (PF.num std_dev) x))
  ⟨upper, mid, lower, get_boll_signal close upper mid lower⟩

/-- calc_atr: true range as the row-wise skipna maximum of the three
candidates, then a rolling mean. -/
def calc_atr (high low close : List PF) (period : ℕ := 14) : List PF :=
  let tr1 := List.zipWith PF.sub high low
  let tr2 := (List.zipWith PF.sub high (shift1 close)).map PF.abs
  let tr3 := (List.zipWith PF.sub low (shift1 close)).map PF.abs
  let tr := List.zipWith maxSkipNan (List.zipWith maxSkipNan tr1 tr2) tr3
  rollingMean period tr

/-- calc_vol_ma: volume moving averages, as (period, column) pairs. -/
def calc_vol_ma (volume : List PF) (periods : List ℕ := [5, 10, 20]) :
    List (ℕ × List PF) :=
  periods.map (fun p => (p, rollingMean p volume))

/-- detect_trend: dual moving-average trend classification. -/
def detect_trend (close : List PF) (ma_short : ℕ := 20) (ma_long : ℕ := 60) :
    Option String :=
  let ma_s := rollingMean ma_short close
  let ma_l := rollingMean ma_long close
  if ma_s.length < 1 || ma_l.length < 1 then some "数据不足" else
  match ilocBack ma_s 1, ilocBack ma_l 1, ilocBack close 1 with
  | some s1, some l1, some c1 =>
      some (if PF.gtb s1 l1 && PF.gtb c1 s1 then "上升趋势"
        else if PF.ltb s1 l1 && PF.ltb c1 s1 then "下降趋势"
        else "震荡整理")
  | _, _, _ => none

/-- Result of find_support_resistance. -/
structure SRData where
  support : PF
  resistance : PF
  pivot : PF
deriving DecidableEq, Repr

/-- find_support_resistance: rolling extreme levels and the pivot, rounded
to two decimals; raises (none) on an empty series. -/
def find_support_resistance (high low close : List PF) (period : ℕ := 20) :
    Option SRData :=
  match ilocBack (rollingMin period low) 1, ilocBack (rollingMax period high) 1,
      ilocBack high 1, ilocBack low 1, ilocBack close 1 with
  | some s, some r, some h1, some l1, some c1 =>
      some ⟨pyRound 2 s, pyRound 2 r,
        pyRound 2 (PF.div (PF.add (PF.add h1 l1) c1) (PF.num 3))⟩
  | _, _, _, _, _ => none

/-- Result of technical_score. -/
structure ScoreData where
  score : ℤ
  rating : String
  stars : ℕ
deriving DecidableEq, Repr

/-- technical_score: additive rule engine over the signal strings starting
from a base of 50, with the final score clamped to [0, 100] and the
rating/stars tiers read off the unclamped score. -/
def technical_score (macd_signal kdj_signal rsi_signal boll_signal trend : String) :
    ScoreData :=
  let score : ℤ := 50
  let score := if strHas macd_signal "金叉" || strHas macd_signal "多头" then score + 15
    else if strHas macd_signal "死叉" || strHas macd_signal "空头" then score - 15
    else score
  let score := if strHas kdj_signal "强买" then score + 15
    else if strHas kdj_signal "买入" then score + 10
    else if strHas kdj_signal "强卖" then score - 15
    else if strHas kdj_signal "卖出" then score - 10
    else score
  let score := if strHas rsi_signal "超卖" then score + 10
    else if strHas rsi_signal "超买" then score - 10
    else score
  let score := if strHas boll_signal "超卖" then score + 10
    else if strHas boll_signal "超买" then score - 10
    else if strHas boll_signal "偏多" then score + 5
    else if strHas boll_signal "偏空" then score - 5
    else score
  let score := if trend = "上升趋势" then score + 15
    else if trend = "下降趋势" then score - 15
    else score
  let rs : String × ℕ :=
    if score ≥ 80 then ("强烈买入", 5)
    else if score ≥ 65 then ("买入", 4)
    else if score ≥ 50 then ("中性", 3)
    else if score ≥ 35 then ("卖出", 2)
    else ("强烈卖出", 1)
  ⟨min (max score 0) 100, rs.1, rs.2⟩

/-- Input DataFrame of analyze_stock: the four extracted columns (equal
length, as in any DataFrame). -/
structure StockDF where
  close : List PF
  high : List PF
  low : List PF
  volume : List PF

/-- Output bundle of analyze_stock, with the nested dict flattened into
one record. -/
structure AnalysisBundle where
  priceCurrent : PF
  priceChangePct : PF
  trend : String
  sr : SRData
  macdDIF : PF
  macdDEA : PF
  macdSignal : String
  kdjK : PF
  kdjD : PF
  kdjJ : PF
  kdjSignal : String
  rsiValue : PF
  rsiSignal : String
  bollUpper : PF
  bollMid : PF
  bollLower : PF
  bollSignal : String
  atr : PF
  score : ScoreData
deriving DecidableEq, Repr

/-- analyze_stock: the full pipeline.  `none` models an uncaught
IndexError (the `iloc[-1]`/`iloc[-2]` accesses of the result dict and of
find_support_resistance on a too-short series).  The ma_data DataFrame is
computed by the source but unused in its output; the volume column is
extracted but consumed by nothing. -/
def analyze_stock (sf : ℚ → ℚ) (df : StockDF) : Option AnalysisBundle :=
  let close := df.close
  let high := df.high
  let low := df.low
  let _ma_data := calc_ma close
  let macd_data := calc_macd close
  let kdj_data := calc_kdj high low close
  let rsi_data := calc_rsi close
  let boll_data := calc_boll sf close
  let atr := calc_atr high low close
  match detect_trend close, find_support_resistance high low close with
  | some trend, some sr =>
    match macd_data.signal, kdj_data.signal, rsi_data.signal, boll_data.signal with
    | some ms, some ks, some rsig, some bs =>
      let score_data := technical_score ms ks rsig bs trend
      match ilocBack close 1, ilocBack close 2,
          ilocBack macd_data.DIF 1, ilocBack macd_data.DEA 1,
          ilocBack kdj_data.K 1, ilocBack kdj_data.D 1, ilocBack kdj_data.J 1,
          ilocBack rsi_data.RSI 1, ilocBack boll_data.UPPER 1,
          ilocBack boll_data.MID 1, ilocBack boll_data.LOWER 1,
          ilocBack atr 1 with
      | some c1, some c2, some dif1, some dea1, some k1, some d1, some j1,
          some r1, some u1, some m1, some l1, some a1 =>
          some { priceCurrent := pyRound 2 c1
                 priceChangePct :=
                   pyRound 2 (PF.mul (PF.sub (PF.div c1 c2) (PF.num 1)) (PF.num 100))
                 trend := trend
                 sr := sr
                 macdDIF := pyRound 4 dif1
                 macdDEA := pyRound 4 dea1
                 macdSignal := ms
                 kdjK := pyRound 2 k1
                 kdjD := pyRound 2 d1
                 kdjJ := pyRound 2 j1
                 kdjSignal := ks
                 rsiValue := pyRound 2 r1
                 rsiSignal := rsig
                 bollUpper := pyRound 2 u1
                 bollMid := pyRound 2 m1
                 bollLower := pyRound 2 l1
                 bollSignal := bs
                 atr := pyRound 2 a1
                 score := score_data }
      | _, _, _, _, _, _, _, _, _, _, _, _ => none
    | _, _, _, _ => none
  | _, _ => none

/- Basic lemmas about the float model. -/

/-- Addition with NaN on the right is NaN. -/
@[simp] theorem PF.add_nan (x : PF) : PF.add x PF.nan = PF.nan := by cases x <;> rfl

/-- Addition with NaN on the left is NaN. -/
@[simp] theorem PF.nan_add (x : PF) : PF.add PF.nan x = PF.nan := by cases x <;> rfl

/-- Negation of NaN is NaN. -/
@[simp] theorem PF.neg_nan : PF.neg PF.nan = PF.nan := rfl

/-- Subtraction with NaN on the right is NaN. -/
@[simp] theorem PF.sub_nan (x : PF) : PF.sub x PF.nan = PF.nan := by cases x <;> rfl

/-- Subtraction with NaN on the left is NaN. -/
@[simp] theorem PF.nan_sub (x : PF) : PF.sub PF.nan x = PF.nan := by cases x <;> rfl

/-- Multiplication with NaN on the right is NaN. -/
@[simp] theorem PF.mul_nan (x : PF) : PF.mul x PF.nan = PF.nan := by cases x <;> rfl

/-- Multiplication with NaN on the left is NaN. -/
@[simp] theorem PF.nan_mul (x : PF) : PF.mul PF.nan x = PF.nan := by cases x <;> rfl

/-- Division with NaN on the right is NaN. -/
@[simp] theorem PF.div_nan (x : PF) : PF.div x PF.nan = PF.nan := by cases x <;> rfl

/-- Division with NaN on the left is NaN. -/
@[simp] theorem PF.nan_div (x : PF) : PF.div PF.nan x = PF.nan := by cases x <;> rfl

/-- Nothing is less than NaN. -/
@[simp] theorem PF.ltb_nan (x : PF) : PF.ltb x PF.nan = false := by cases x <;> rfl

/-- NaN is less than nothing. -/
@[simp] theorem PF.nan_ltb (x : PF) : PF.ltb PF.nan x = false := by cases x <;> rfl

/-- Nothing is at most NaN. -/
@[simp] theorem PF.leb_nan (x : PF) : PF.leb x PF.nan = false := by cases x <;> rfl

/-- NaN is at most nothing. -/
@[simp] theorem PF.nan_leb (x : PF) : PF.leb PF.nan x = false := by cases x <;> rfl

/-- Nothing is greater than NaN. -/
@[simp] theorem PF.gtb_nan (x : PF) : PF.gtb x PF.nan = false := by cases x <;> rfl

/-- NaN is greater than nothing. -/
@[simp] theorem PF.nan_gtb (x : PF) : PF.gtb PF.nan x = false := by cases x <;> rfl

/-- Addition on finite values is rational addition. -/
@[simp] theorem PF.num_add (a b : ℚ) : PF.add (PF.num a) (PF.num b) = PF.num (a + b) := rfl

/-- Subtraction on finite values is rational subtraction. -/
@[simp] theorem PF.num_sub (a b : ℚ) : PF.sub (PF.num a) (PF.num b) = PF.num (a - b) := by
  simp [PF.sub, PF.neg, PF.add, sub_eq_add_neg]

/-- Multiplication on finite values is rational multiplication. -/
@[simp] theorem PF.num_mul (a b : ℚ) : PF.mul (PF.num a) (PF.num b) = PF.num (a * b) := rfl

/-- Strict comparison on finite values is rational comparison. -/
@[simp] theorem PF.num_ltb (a b : ℚ) : PF.ltb (PF.num a) (PF.num b) = decide (a < b) := rfl

/-- Non-strict comparison on finite values is rational comparison. -/
@[simp] theorem PF.num_leb (a b : ℚ) : PF.leb (PF.num a) (PF.num b) = decide (a ≤ b) := rfl

/-- Greater-than on finite values is rational comparison. -/
@[simp] theorem PF.num_gtb (a b : ℚ) : PF.gtb (PF.num a) (PF.num b) = decide (b < a) := rfl

/-- Greater-or-equal on finite values is rational comparison. -/
@[simp] theorem PF.num_geb (a b : ℚ) : PF.geb (PF.num a) (PF.num b) = decide (b ≤ a) := rfl

/- Claims about the composite scorer. -/

/-- Clamping an integer into [0, 100]. -/
theorem clamp_bounds (s : ℤ) : 0 ≤ min (max s 0) 100 ∧ min (max s 0) 100 ≤ 100 :=
  ⟨le_min (le_max_right s 0) (by norm_num), min_le_right _ _⟩

/-- C3: for every quintuple of MACD/KDJ/RSI/BOLL signal strings and trend
label, the score field returned by technical_score lies in [0, 100], even
when the raw additive adjustments over the base score 50 would leave that
range (the final clamp guarantees it). -/
theorem c3_score_in_range (m k r b t : String) :
    0 ≤ (technical_score m k r b t).score ∧ (technical_score m k r b t).score ≤ 100 :=
  clamp_bounds _

/-- C10: the KDJ signals 高位金叉 (high-level golden cross) and 低位死叉
(low-level death cross) contribute an adjustment of exactly 0 to
technical_score: with every other input fixed, the result equals the
result for the neutral KDJ signal 中性震荡, so such crosses never change
the composite score. -/
theorem c10_kdj_neutral_signals (m r b t : String) :
    technical_score m "高位金叉" r b t = technical_score m "中性震荡" r b t ∧
    technical_score m "低位死叉" r b t = technical_score m "中性震荡" r b t :=
  ⟨rfl, rfl⟩

/-- Tier reading of an unclamped score: the rating/star pair of
technical_score as a function of the raw score, stated against the clamped
score the caller sees. -/
theorem tier_spec (s : ℤ) :
    (80 ≤ min (max s 0) 100 →
      (if s ≥ 80 then (("强烈买入" : String), (5 : ℕ)) else if s ≥ 65 then ("买入", 4)
        else if s ≥ 50 then ("中性", 3) else if s ≥ 35 then ("卖出", 2)
        else ("强烈卖出", 1)).1 = "强烈买入" ∧
      (if s ≥ 80 then (("强烈买入" : String), (5 : ℕ)) else if s ≥ 65 then ("买入", 4)
        else if s ≥ 50 then ("中性", 3) else if s ≥ 35 then ("卖出", 2)
        else ("强烈卖出", 1)).2 = 5) ∧
    (65 ≤ min (max s 0) 100 ∧ min (max s 0) 100 < 80 →
      (if s ≥ 80 then (("强烈买入" : String), (5 : ℕ)) else if s ≥ 65 then ("买入", 4)
        else if s ≥ 50 then ("中性", 3) else if s ≥ 35 then ("卖出", 2)
        else ("强烈卖出", 1)).1 = "买入" ∧
      (if s ≥ 80 then (("强烈买入" : String), (5 : ℕ)) else if s ≥ 65 then ("买入", 4)
        else if s ≥ 50 then ("中性", 3) else if s ≥ 35 then ("卖出", 2)
        else ("强烈卖出", 1)).2 = 4) ∧
    (50 ≤ min (max s 0) 100 ∧ min (max s 0) 100 < 65 →
      (if s ≥ 80 then (("强烈买入" : String), (5 : ℕ)) else if s ≥ 65 then ("买入", 4)
        else if s ≥ 50 then ("中性", 3) else if s ≥ 35 then ("卖出", 2)
        else ("强烈卖出", 1)).1 = "中性" ∧
      (if s ≥ 80 then (("强烈买入" : String), (5 : ℕ)) else if s ≥ 65 then ("买入", 4)
        else if s ≥ 50 then ("中性", 3) else if s ≥ 35 then ("卖出", 2)
        else ("强烈卖出", 1)).2 = 3) ∧
    (35 ≤ min (max s 0) 100 ∧ min (max s 0) 100 < 50 →
      (if s ≥ 80 then (("强烈买入" : String), (5 : ℕ)) else if s ≥ 65 then ("买入", 4)
        else if s ≥ 50 then ("中性", 3) else if s ≥ 35 then ("卖出", 2)
        else ("强烈卖出", 1)).1 = "卖出" ∧
      (if s ≥ 80 then (("强烈买入" : String), (5 : ℕ)) else if s ≥ 65 then ("买入", 4)
        else if s ≥ 50 then ("中性", 3) else if s ≥ 35 then ("卖出", 2)
        else ("强烈卖出", 1)).2 = 2) ∧
    (min (max s 0) 100 < 35 →
      (if s ≥ 80 then (("强烈买入" : String), (5 : ℕ)) else if s ≥ 65 then ("买入", 4)
        else if s ≥ 50 then ("中性", 3) else if s ≥ 35 then ("卖出", 2)
        else ("强烈卖出", 1)).1 = "强烈卖出" ∧
      (if s ≥ 80 then (("强烈买入" : String), (5 : ℕ)) else if s ≥ 65 then ("买入", 4)
        else if s ≥ 50 then ("中性", 3) else if s ≥ 35 then ("卖出", 2)
        else ("强烈卖出", 1)).2 = 1) := by
  refine ⟨fun h1 => ?_, fun h1 => ?_, fun h1 => ?_, fun h1 => ?_, fun h1 => ?_⟩ <;>
    split_ifs with h2 h3 h4 h5 <;> first | exact ⟨rfl, rfl⟩ | (exfalso; omega)

/-- C4: technical_score assigns rating and stars from the (returned,
clamped) score with tier boundaries inclusive on the lower edge: score ≥ 80
gives 强烈买入 (strong buy) with 5 stars, 65 ≤ score < 80 gives 买入 (buy)
with 4 stars, 50 ≤ score < 65 gives 中性 (neutral) with 3 stars,
35 ≤ score < 50 gives 卖出 (sell) with 2 stars, and score < 35 gives
强烈卖出 (strong sell) with 1 star.  In particular, a returned score of
exactly 80 falls in the strong-buy tier and a returned score of exactly 79
would fall in the buy tier. -/
theorem c4_rating_tiers (m k r b t : String) :
    (80 ≤ (technical_score m k r b t).score →
      (technical_score m k r b t).rating = "强烈买入" ∧ (technical_score m k r b t).stars = 5) ∧
    (65 ≤ (technical_score m k r b t).score ∧ (technical_score m k r b t).score < 80 →
      (technical_score m k r b t).rating = "买入" ∧ (technical_score m k r b t).stars = 4) ∧
    (50 ≤ (technical_score m k r b t).score ∧ (technical_score m k r b t).score < 65 →
      (technical_score m k r b t).rating = "中性" ∧ (technical_score m k r b t).stars = 3) ∧
    (35 ≤ (technical_score m k r b t).score ∧ (technical_score m k r b t).score < 50 →
      (technical_score m k r b t).rating = "卖出" ∧ (technical_score m k r b t).stars = 2) ∧
    ((technical_score m k r b t).score < 35 →
      (technical_score m k r b t).rating = "强烈卖出" ∧ (technical_score m k r b t).stars = 1) :=
  tier_spec _

/-- C4 witness: a concrete signal combination whose returned score is
exactly 80 (the inclusive lower tier edge) is rated 强烈买入 with 5 stars,
via c4_rating_tiers; and one with returned score 75 (inside the 65–79 buy
tier) is rated 买入 with 4 stars. -/
theorem c4_rating_tiers_witness :
    (technical_score "金叉买入" "中性震荡" "中性(55.0)" "数据不足" "上升趋势").score = 80 ∧
    (technical_score "金叉买入" "中性震荡" "中性(55.0)" "数据不足" "上升趋势").rating = "强烈买入" ∧
    (technical_score "金叉买入" "中性震荡" "中性(55.0)" "数据不足" "上升趋势").stars = 5 ∧
    (technical_score "数据不足" "金叉买入" "中性(55.0)" "数据不足" "上升趋势").score = 75 ∧
    (technical_score "数据不足" "金叉买入" "中性(55.0)" "数据不足" "上升趋势").rating = "买入" ∧
    (technical_score "数据不足" "金叉买入" "中性(55.0)" "数据不足" "上升趋势").stars = 4 :=
  ⟨by decide,
   ((c4_rating_tiers "金叉买入" "中性震荡" "中性(55.0)" "数据不足" "上升趋势").1 (by decide)).1,
   ((c4_rating_tiers "金叉买入" "中性震荡" "中性(55.0)" "数据不足" "上升趋势").1 (by decide)).2,
   by decide,
   ((c4_rating_tiers "数据不足" "金叉买入" "中性(55.0)" "数据不足" "上升趋势").2.1 (by decide)).1,
   ((c4_rating_tiers "数据不足" "金叉买入" "中性(55.0)" "数据不足" "上升趋势").2.1 (by decide)).2⟩

/-- C5: when DIF and DEA have at least 2 points with the last two defined,
the MACD signal is 金叉买入 (golden cross / buy) iff prior DIF ≤ prior DEA
and current DIF > current DEA, and 死叉卖出 (death cross / sell) iff prior
DIF ≥ prior DEA and current DIF < current DEA; with fewer than 2 points the
signal is 数据不足 (insufficient data). -/
theorem c5_macd_signal (dif dea : List PF) :
    (dif.length < 2 → get_macd_signal dif dea = some "数据不足") ∧
    (∀ d1 d2 e1 e2 : ℚ, 2 ≤ dif.length →
      ilocBack dif 1 = some (PF.num d1) → ilocBack dif 2 = some (PF.num d2) →
      ilocBack dea 1 = some (PF.num e1) → ilocBack dea 2 = some (PF.num e2) →
      ((get_macd_signal dif dea = some "金叉买入" ↔ (d2 ≤ e2 ∧ e1 < d1)) ∧
       (get_macd_signal dif dea = some "死叉卖出" ↔ (e2 ≤ d2 ∧ d1 < e1)))) := by
  constructor
  · intro h
    simp [get_macd_signal, h]
  · intro d1 d2 e1 e2 h2 h3 h4 h5 h6
    simp only [get_macd_signal, if_neg (by omega : ¬ dif.length < 2), h3, h4, h5, h6]
    simp only [PF.num_gtb, PF.num_leb, PF.num_ltb, PF.num_geb]
    by_cases hx : e1 < d1 <;> by_cases hy : d2 ≤ e2 <;>
      by_cases hz : d1 < e1 <;> by_cases hw : e2 ≤ d2 <;>
      first
        | (exfalso; linarith)
        | (split_ifs <;> simp_all <;> try linarith)

/-- C5 witness: a concrete crossing pair (DIF going from 0 below DEA to 1
above it) yields the golden-cross signal, and a single-point pair yields
数据不足. -/
theorem c5_macd_signal_witness :
    get_macd_signal [PF.num 0, PF.num 1] [PF.num 1, PF.num 0] = some "金叉买入" ∧
    get_macd_signal [PF.num 5] [PF.num 5] = some "数据不足" :=
  ⟨((c5_macd_signal [PF.num 0, PF.num 1] [PF.num 1, PF.num 0]).2 1 0 0 1
      (by decide) (by decide) (by decide) (by decide) (by decide)).1.mpr
      ⟨by norm_num, by norm_num⟩,
   (c5_macd_signal [PF.num 5] [PF.num 5]).1 (by decide)⟩

/- Access lemmas for the series operations. -/

/-- ilocBack as a front-indexed access, when in range. -/
theorem ilocBack_of_le {xs : List PF} {k : ℕ} (h1 : 1 ≤ k) (h2 : k ≤ xs.length) :
    ilocBack xs k = xs.get? (xs.length - k) := by
  simp [ilocBack, h1, h2]

/-- ilocBack succeeds when in range. -/
theorem ilocBack_isSome {l : List PF} {k : ℕ} (h1 : 1 ≤ k) (h2 : k ≤ l.length) :
    ∃ x, ilocBack l k = some x := by
  rw [ilocBack_of_le h1 h2]
  have h : l.length - k < l.length := by omega
  exact ⟨l.get ⟨_, h⟩, List.get?_eq_get h⟩

/-- ilocBack fails when out of range. -/
theorem ilocBack_eq_none {xs : List PF} {k : ℕ} (h : xs.length < k) :
    ilocBack xs k = none := by
  simp only [ilocBack, ite_eq_right_iff]
  intro hc
  omega

/-- Length of a rolling result. -/
@[simp] theorem rollingOp_length (f : List ℚ → ℚ) (n : ℕ) (xs : List PF) :
    (rollingOp f n xs).length = xs.length := by
  simp [rollingOp]

/-- Length of a rolling mean. -/
@[simp] theorem rollingMean_length (n : ℕ) (xs : List PF) :
    (rollingMean n xs).length = xs.length := rollingOp_length _ _ _

/-- Length of a rolling min. -/
@[simp] theorem rollingMin_length (n : ℕ) (xs : List PF) :
    (rollingMin n xs).length = xs.length := rollingOp_length _ _ _

/-- Length of a rolling max. -/
@[simp] theorem rollingMax_length (n : ℕ) (xs : List PF) :
    (rollingMax n xs).length = xs.length := rollingOp_length _ _ _

/-- Length of a rolling standard deviation. -/
@[simp] theorem rollingStd_length (sf : ℚ → ℚ) (n : ℕ) (xs : List PF) :
    (rollingStd sf n xs).length = xs.length := rollingOp_length _ _ _

/-- Entry of a rolling result. -/
theorem rollingOp_get? {f : List ℚ → ℚ} {n : ℕ} {xs : List PF} {i : ℕ}
    (h : i < xs.length) :
    (rollingOp f n xs).get? i =
      some (if i + 1 < n then PF.nan else winVal f (windowAt xs n i)) := by
  unfold rollingOp
  rw [List.get?_map, List.get?_range h]
  rfl

/-- Before the window fills, a rolling entry is NaN. -/
theorem rollingOp_get?_unfilled {f : List ℚ → ℚ} {n : ℕ} {xs : List PF} {i : ℕ}
    (h : i < xs.length) (h2 : i + 1 < n) :
    (rollingOp f n xs).get? i = some PF.nan := by
  rw [rollingOp_get? h, if_pos h2]

/-- Once the window fills, a rolling entry is the window statistic. -/
theorem rollingOp_get?_filled {f : List ℚ → ℚ} {n : ℕ} {xs : List PF} {i : ℕ}
    (h : i < xs.length) (h2 : n ≤ i + 1) :
    (rollingOp f n xs).get? i = some (winVal f (windowAt xs n i)) := by
  rw [rollingOp_get? h, if_neg (by omega)]

/-- Length of a filled window. -/
theorem windowAt_length {xs : List PF} {n i : ℕ} (h : i < xs.length) (h2 : n ≤ i + 1) :
    (windowAt xs n i).length = n := by
  simp only [windowAt, List.length_drop, List.length_take]
  omega

/-- Entry of a filled window, in terms of the base list. -/
theorem windowAt_get? {l : List PF} {n i : ℕ} (h : i < l.length) (h2 : n ≤ i + 1)
    {j : ℕ} (hj : j < n) :
    (windowAt l n i).get? j = l.get? (i + 1 - n + j) := by
  simp only [windowAt, List.get?_drop]
  rw [List.get?_take (by omega)]

/-- Every member of a window is a member of the base list. -/
theorem windowAt_mem {xs : List PF} {n i : ℕ} {x : PF} (h : x ∈ windowAt xs n i) :
    x ∈ xs :=
  List.mem_of_mem_take (List.mem_of_mem_drop h)

/-- allNum? preserves length. -/
theorem allNum?_length : ∀ {w : List PF} {qs : List ℚ}, allNum? w = some qs →
    qs.length = w.length := by
  intro w
  induction w with
  | nil => intro qs h; simp [allNum?] at h; simp [← h]
  | cons x t ih =>
    intro qs h
    match x with
    | PF.nan => simp [allNum?] at h
    | PF.inf => simp [allNum?] at h
    | PF.ninf => simp [allNum?] at h
    | PF.num q =>
      simp only [allNum?, Option.map_eq_some'] at h
      obtain ⟨qs', hqs', rfl⟩ := h
      simp [ih hqs']

/-- allNum? entries match the base list's entries. -/
theorem allNum?_get? : ∀ {w : List PF} {qs : List ℚ}, allNum? w = some qs →
    ∀ j : ℕ, w.get? j = (qs.get? j).map PF.num := by
  intro w
  induction w with
  | nil => intro qs h j; simp only [allNum?, Option.some.injEq] at h; simp [← h]
  | cons x t ih =>
    intro qs h j
    match x with
    | PF.nan => simp [allNum?] at h
    | PF.inf => simp [allNum?] at h
    | PF.ninf => simp [allNum?] at h
    | PF.num q =>
      simp only [allNum?, Option.map_eq_some'] at h
      obtain ⟨qs', hqs', rfl⟩ := h
      match j with
      | 0 => rfl
      | j + 1 => simpa using ih hqs' j

/-- A list of finite values has an allNum? extraction. -/
theorem allNum?_of_forall : ∀ {w : List PF}, (∀ x ∈ w, ∃ q, x = PF.num q) →
    ∃ qs, allNum? w = some qs := by
  intro w
  induction w with
  | nil => exact fun _ => ⟨[], rfl⟩
  | cons x t ih =>
    intro h
    obtain ⟨q, rfl⟩ := h x (List.mem_cons_self x t)
    obtain ⟨qs, hqs⟩ := ih (fun y hy => h y (List.mem_cons_of_mem _ hy))
    exact ⟨q :: qs, by simp [allNum?, hqs]⟩

/-- winVal on a window of finite values. -/
theorem winVal_eq_num {f : List ℚ → ℚ} {w : List PF} {qs : List ℚ}
    (h : allNum? w = some qs) : winVal f w = PF.num (f qs) := by
  simp [winVal, h]

/-- The list minimum is at most the fold seed. -/
theorem foldl_min_le_init (t : List ℚ) (b : ℚ) : t.foldl min b ≤ b := by
  induction t generalizing b with
  | nil => simp
  | cons h t ih => exact le_trans (ih (min b h)) (min_le_left _ _)

/-- The list minimum is at most every member. -/
theorem foldl_min_le_mem {a : ℚ} : ∀ (t : List ℚ) (b : ℚ), a ∈ t → t.foldl min b ≤ a := by
  intro t
  induction t with
  | nil => intro b hb; cases hb
  | cons h t ih =>
    intro b hb
    rcases List.mem_cons.mp hb with rfl | hb'
    · exact le_trans (foldl_min_le_init t (min b a)) (min_le_right _ _)
    · exact ih _ hb'

/-- listMinQ bounds every member from below. -/
theorem listMinQ_le {a : ℚ} : ∀ {qs : List ℚ}, a ∈ qs → listMinQ qs ≤ a := by
  intro qs h
  match qs, h with
  | b :: t, h =>
    rcases List.mem_cons.mp h with rfl | h'
    · exact foldl_min_le_init t a
    · exact foldl_min_le_mem t b h'

/-- The fold seed is at most the list maximum. -/
theorem init_le_foldl_max (t : List ℚ) (b : ℚ) : b ≤ t.foldl max b := by
  induction t generalizing b with
  | nil => simp
  | cons h t ih => exact le_trans (le_max_left _ _) (ih (max b h))

/-- Every member is at most the list maximum. -/
theorem mem_le_foldl_max {a : ℚ} : ∀ (t : List ℚ) (b : ℚ), a ∈ t → a ≤ t.foldl max b := by
  intro t
  induction t with
  | nil => intro b hb; cases hb
  | cons h t ih =>
    intro b hb
    rcases List.mem_cons.mp hb with rfl | hb'
    · exact le_trans (le_max_right _ _) (init_le_foldl_max t (max b a))
    · exact ih _ hb'

/-- listMaxQ bounds every member from above. -/
theorem le_listMaxQ {a : ℚ} : ∀ {qs : List ℚ}, a ∈ qs → a ≤ listMaxQ qs := by
  intro qs h
  match qs, h with
  | b :: t, h =>
    rcases List.mem_cons.mp h with rfl | h'
    · exact init_le_foldl_max t a
    · exact mem_le_foldl_max t b h'

/-- Length of the ewm recursion. -/
@[simp] theorem ewmRec_length (α : ℚ) (prev : PF) (xs : List PF) :
    (ewmRec α prev xs).length = xs.length := by
  induction xs generalizing prev with
  | nil => rfl
  | cons x t ih => simp [ewmRec, ih]

/-- Length of an ewm result. -/
@[simp] theorem ewmAlpha_length (α : ℚ) (xs : List PF) :
    (ewmAlpha α xs).length = xs.length := by
  cases xs with
  | nil => rfl
  | cons x t => simp [ewmAlpha]

/-- The ewm recursion preserves finiteness. -/
theorem ewmRec_allNum {α : ℚ} : ∀ {xs : List PF} {prev : PF},
    (∀ x ∈ xs, ∃ q, x = PF.num q) → (∃ p, prev = PF.num p) →
    ∀ y ∈ ewmRec α prev xs, ∃ q, y = PF.num q := by
  intro xs
  induction xs with
  | nil => intro prev _ _ y hy; cases hy
  | cons x t ih =>
    intro prev hx hp y hy
    obtain ⟨p, rfl⟩ := hp
    obtain ⟨q, rfl⟩ := hx x (List.mem_cons_self x t)
    simp only [ewmRec, PF.num_mul, PF.num_add, List.mem_cons] at hy
    rcases hy with rfl | hy'
    · exact ⟨_, rfl⟩
    · exact ih (fun z hz => hx z (List.mem_cons_of_mem _ hz)) ⟨_, rfl⟩ y hy'

/-- ewm preserves finiteness. -/
theorem ewmAlpha_allNum {α : ℚ} {xs : List PF}
    (hx : ∀ x ∈ xs, ∃ q, x = PF.num q) :
    ∀ y ∈ ewmAlpha α xs, ∃ q, y = PF.num q := by
  cases xs with
  | nil => intro y hy; cases hy
  | cons x t =>
    intro y hy
    simp only [ewmAlpha, List.mem_cons] at hy
    rcases hy with rfl | hy'
    · exact hx y (List.mem_cons_self _ _)
    · exact ewmRec_allNum (fun z hz => hx z (List.mem_cons_of_mem _ hz))
        (hx x (List.mem_cons_self x t)) y hy'

/-- The ewm recursion fixes a constant run equal to the previous value. -/
theorem ewmRec_const (α : ℚ) (q : ℚ) : ∀ m : ℕ,
    ewmRec α (PF.num q) (List.replicate m (PF.num q)) = List.replicate m (PF.num q) := by
  intro m
  induction m with
  | zero => rfl
  | succ m ih =>
    simp only [List.replicate, ewmRec, PF.num_mul, PF.num_add]
    rw [show (1 - α) * q + α * q = q by ring]
    rw [ih]

/-- ewm of a constant list is that list. -/
theorem ewmAlpha_const (α : ℚ) (q : ℚ) (m : ℕ) :
    ewmAlpha α (List.replicate m (PF.num q)) = List.replicate m (PF.num q) := by
  cases m with
  | zero => rfl
  | succ m =>
    simp only [List.replicate, ewmAlpha]
    rw [ewmRec_const]

/-- Length of diffL. -/
@[simp] theorem diffL_length (xs : List PF) : (diffL xs).length = xs.length := by
  simp [diffL]

/-- First entry of diffL is NaN; later entries are differences. -/
theorem diffL_get? (xs : List PF) (i : ℕ) :
    (diffL xs).get? i =
      ((xs.get? i).map PF.sub).bind (fun g => ((PF.nan :: xs).get? i).map g) :=
  List.get?_zipWith' _ _ _ _

/-- Length of shift1. -/
@[simp] theorem shift1_length (xs : List PF) : (shift1 xs).length = xs.length := by
  simp [shift1]

/-- Length of fillna. -/
@[simp] theorem fillna_length (v : ℚ) (xs : List PF) : (fillna v xs).length = xs.length := by
  simp [fillna]

/-- Entry of fillna. -/
theorem fillna_get? (v : ℚ) (xs : List PF) (i : ℕ) :
    (fillna v xs).get? i = (xs.get? i).map (fun x => if x = PF.nan then PF.num v else x) :=
  List.get?_map _ _ _

/-- Entry of a zipWith when both sides are defined. -/
theorem get?_zipWith_some {f : PF → PF → PF} {as bs : List PF} {i : ℕ} {a b : PF}
    (ha : as.get? i = some a) (hb : bs.get? i = some b) :
    (List.zipWith f as bs).get? i = some (f a b) := by
  rw [List.get?_zipWith', ha, hb]
  rfl

/-- Entry of a map when the base entry is defined. -/
theorem get?_map_some {f : PF → PF} {as : List PF} {i : ℕ} {a : PF}
    (ha : as.get? i = some a) : (as.map f).get? i = some (f a) := by
  rw [List.get?_map, ha]
  rfl

/-- An in-range position of a list has a defined entry. -/
theorem get?_isSome_of_lt {α : Type} {l : List α} {i : ℕ} (h : i < l.length) :
    ∃ x, l.get? i = some x :=
  ⟨l.get ⟨i, h⟩, List.get?_eq_get h⟩

/-- A seed below every element stays below the min fold. -/
theorem le_foldl_min {c : ℚ} : ∀ (t : List ℚ) (b : ℚ), c ≤ b → (∀ x ∈ t, c ≤ x) →
    c ≤ t.foldl min b := by
  intro t
  induction t with
  | nil => intro b hb _; simpa using hb
  | cons h t ih =>
    intro b hb hall
    exact ih (min b h) (le_min hb (hall h (List.mem_cons_self h t)))
      (fun x hx => hall x (List.mem_cons_of_mem _ hx))

/-- A bound above every element stays above the max fold. -/
theorem foldl_max_le {c : ℚ} : ∀ (t : List ℚ) (b : ℚ), b ≤ c → (∀ x ∈ t, x ≤ c) →
    t.foldl max b ≤ c := by
  intro t
  induction t with
  | nil => intro b hb _; simpa using hb
  | cons h t ih =>
    intro b hb hall
    exact ih (max b h) (max_le hb (hall h (List.mem_cons_self h t)))
      (fun x hx => hall x (List.mem_cons_of_mem _ hx))

/-- Minimum of a constant list. -/
theorem listMinQ_const {c : ℚ} : ∀ {qs : List ℚ}, (∀ x ∈ qs, x = c) → qs ≠ [] →
    listMinQ qs = c := by
  intro qs hall hne
  match qs, hne with
  | b :: t, _ =>
    have hb : b = c := hall b (List.mem_cons_self b t)
    refine le_antisymm ?_ ?_
    · simpa [listMinQ, hb] using foldl_min_le_init t c
    · exact le_foldl_min t b (le_of_eq hb.symm)
        (fun x hx => le_of_eq (hall x (List.mem_cons_of_mem _ hx)).symm)

/-- Maximum of a constant list. -/
theorem listMaxQ_const {c : ℚ} : ∀ {qs : List ℚ}, (∀ x ∈ qs, x = c) → qs ≠ [] →
    listMaxQ qs = c := by
  intro qs hall hne
  match qs, hne with
  | b :: t, _ =>
    have hb : b = c := hall b (List.mem_cons_self b t)
    refine le_antisymm ?_ ?_
    · exact foldl_max_le t b (le_of_eq hb)
        (fun x hx => le_of_eq (hall x (List.mem_cons_of_mem _ hx)))
    · simpa [listMaxQ, hb] using init_le_foldl_max t c

/-- Length of the RSV series: with equal column lengths it is that length. -/
theorem kdj_rsv_length {high low close : List PF} {n L : ℕ}
    (hLh : high.length = L) (hLl : low.length = L) (hLc : close.length = L) :
    (kdj_rsv high low close n).length = L := by
  simp [kdj_rsv, rollingMin, rollingMax, hLh, hLl, hLc]

/-- Before the KDJ window fills, the filled RSV is the fallback 50. -/
theorem kdj_rsv_get?_unfilled {high low close : List PF} {n L i : ℕ}
    (hLh : high.length = L) (hLl : low.length = L) (hLc : close.length = L)
    (hi : i < L) (hin : i + 1 < n) :
    (kdj_rsv high low close n).get? i = some (PF.num 50) := by
  obtain ⟨c, hc⟩ := get?_isSome_of_lt (l := close) (i := i) (by omega)
  have hlo : (rollingMin n low).get? i = some PF.nan :=
    rollingOp_get?_unfilled (by omega) hin
  have hhi : (rollingMax n high).get? i = some PF.nan :=
    rollingOp_get?_unfilled (by omega) hin
  have hnum : (List.zipWith PF.sub close (rollingMin n low)).get? i
      = some (PF.sub c PF.nan) := get?_zipWith_some hc hlo
  have hden : (List.zipWith PF.sub (rollingMax n high) (rollingMin n low)).get? i
      = some (PF.sub PF.nan PF.nan) := get?_zipWith_some hhi hlo
  rw [PF.sub_nan] at hnum hden
  have hdiv := get?_zipWith_some (f := PF.div) hnum hden
  rw [PF.div_nan] at hdiv
  have hmul := get?_map_some (f := fun x => PF.mul x (PF.num 100)) hdiv
  rw [kdj_rsv]
  rw [fillna_get?, hmul]
  simp

/-- The RSV numerator/denominator data at a filled position, under
well-formed bars: min of the low window, max of the high window, and the
three bar values, with the ordering facts needed downstream. -/
theorem kdj_rsv_get?_filled {high low close : List PF} {n L i : ℕ}
    (hLh : high.length = L) (hLl : low.length = L) (hLc : close.length = L)
    (hn : 1 ≤ n) (hi : i < L) (hin : n ≤ i + 1)
    (hw : ∀ j, j < L → ∃ hq lq cq, high.get? j = some (PF.num hq) ∧
      low.get? j = some (PF.num lq) ∧ close.get? j = some (PF.num cq) ∧
      lq ≤ cq ∧ cq ≤ hq) :
    ∃ m M cq, (kdj_rsv high low close n).get? i =
        some (if M - m = 0 then PF.num 50
          else PF.num ((cq - m) / (M - m) * 100)) ∧
      m ≤ cq ∧ cq ≤ M := by
  obtain ⟨hq, lq, cq, hhq, hlq, hcq, hl1, hl2⟩ := hw i hi
  -- the low window and its extraction
  have hlnum : ∀ x ∈ low, ∃ q, x = PF.num q := by
    intro x hx
    obtain ⟨j, hj⟩ := List.get?_of_mem hx
    have hjL : j < L := by
      obtain ⟨hlt, _⟩ := List.get?_eq_some.mp hj
      omega
    obtain ⟨_, lq', _, _, hlq', _, _, _⟩ := hw j hjL
    rw [hj] at hlq'
    exact ⟨lq', by injection hlq'⟩
  have hhnum : ∀ x ∈ high, ∃ q, x = PF.num q := by
    intro x hx
    obtain ⟨j, hj⟩ := List.get?_of_mem hx
    have hjL : j < L := by
      obtain ⟨hlt, _⟩ := List.get?_eq_some.mp hj
      omega
    obtain ⟨hq', _, _, hhq', _, _, _, _⟩ := hw j hjL
    rw [hj] at hhq'
    exact ⟨hq', by injection hhq'⟩
  obtain ⟨qsl, hqsl⟩ := allNum?_of_forall
    (fun x hx => hlnum x (windowAt_mem hx))
  obtain ⟨qsh, hqsh⟩ := allNum?_of_forall
    (fun x hx => hhnum x (windowAt_mem hx))
  have hlwin : (rollingMin n low).get? i = some (PF.num (listMinQ qsl)) := by
    rw [rollingMin, rollingOp_get?_filled (by omega) hin, winVal_eq_num hqsl]
  have hhwin : (rollingMax n high).get? i = some (PF.num (listMaxQ qsh)) := by
    rw [rollingMax, rollingOp_get?_filled (by omega) hin, winVal_eq_num hqsh]
  -- the current bar's low/high are members of their windows
  have hlq_mem : lq ∈ qsl := by
    have hwin : (windowAt low n i).get? (n - 1) = low.get? i := by
      rw [windowAt_get? (l := low) (show i < low.length by omega) hin
        (show n - 1 < n by omega)]
      congr 1
      omega
    rw [hlq, allNum?_get? hqsl] at hwin
    match hqs : qsl.get? (n - 1), hwin' : hwin with
    | some x, _ =>
      rw [hqs] at hwin
      simp only [Option.map_some', Option.some.injEq] at hwin
      have : x = lq := by injection hwin
      exact this ▸ List.get?_mem hqs
    | none, _ =>
      rw [hqs] at hwin
      simp at hwin
  have hhq_mem : hq ∈ qsh := by
    have hwin : (windowAt high n i).get? (n - 1) = high.get? i := by
      rw [windowAt_get? (l := high) (show i < high.length by omega) hin
        (show n - 1 < n by omega)]
      congr 1
      omega
    rw [hhq, allNum?_get? hqsh] at hwin
    match hqs : qsh.get? (n - 1), hwin' : hwin with
    | some x, _ =>
      rw [hqs] at hwin
      simp only [Option.map_some', Option.some.injEq] at hwin
      have : x = hq := by injection hwin
      exact this ▸ List.get?_mem hqs
    | none, _ =>
      rw [hqs] at hwin
      simp at hwin
  refine ⟨listMinQ qsl, listMaxQ qsh, cq, ?_, ?_, ?_⟩
  · have hnum := get?_zipWith_some (f := PF.sub) hcq hlwin
    have hden := get?_zipWith_some (f := PF.sub) hhwin hlwin
    rw [PF.num_sub] at hnum hden
    have hdiv := get?_zipWith_some (f := PF.div) hnum hden
    have hmul := get?_map_some (f := fun x => PF.mul x (PF.num 100)) hdiv
    rw [kdj_rsv, fillna_get?, hmul]
    by_cases hz : listMaxQ qsh - listMinQ qsl = 0
    · have hcz : cq - listMinQ qsl = 0 := by
        have h1 : listMinQ qsl ≤ lq := listMinQ_le hlq_mem
        have h2 : hq ≤ listMaxQ qsh := le_listMaxQ hhq_mem
        have := hl1
        have := hl2
        linarith [sub_eq_zero.mp hz]
      rw [if_pos hz, hcz]
      simp [PF.div, hz]
    · rw [if_neg hz]
      simp [PF.div, hz]
  · exact le_trans (listMinQ_le hlq_mem) hl1
  · exact le_trans hl2 (le_listMaxQ hhq_mem)

/-- In a perfectly flat market every (filled) RSV entry is 50: the
zero-range window hits the 0/0 → NaN → fillna(50) path, the unfilled
positions hit fillna(50) directly. -/
theorem kdj_rsv_flat {high low close : List PF} {n L : ℕ} {c : ℚ}
    (hLh : high.length = L) (hLl : low.length = L) (hLc : close.length = L)
    (hn : 1 ≤ n)
    (hflat : ∀ j, j < L → high.get? j = some (PF.num c) ∧
      low.get? j = some (PF.num c) ∧ close.get? j = some (PF.num c)) :
    ∀ i, i < L → (kdj_rsv high low close n).get? i = some (PF.num 50) := by
  intro i hi
  by_cases hin : i + 1 < n
  · exact kdj_rsv_get?_unfilled hLh hLl hLc hi hin
  · have hin' : n ≤ i + 1 := by omega
    have hlall : ∀ x ∈ low, x = PF.num c := by
      intro x hx
      obtain ⟨j, hj⟩ := List.get?_of_mem hx
      obtain ⟨hlt, _⟩ := List.get?_eq_some.mp hj
      have h := (hflat j (by omega)).2.1
      rw [hj] at h
      injection h with h
    have hhall : ∀ x ∈ high, x = PF.num c := by
      intro x hx
      obtain ⟨j, hj⟩ := List.get?_of_mem hx
      obtain ⟨hlt, _⟩ := List.get?_eq_some.mp hj
      have h := (hflat j (by omega)).1
      rw [hj] at h
      injection h with h
    obtain ⟨qsl, hqsl⟩ := allNum?_of_forall
      (fun x hx => ⟨c, hlall x (windowAt_mem hx)⟩)
    obtain ⟨qsh, hqsh⟩ := allNum?_of_forall
      (fun x hx => ⟨c, hhall x (windowAt_mem hx)⟩)
    have hqsl_const : ∀ y ∈ qsl, y = c := by
      intro y hy
      obtain ⟨j, hj⟩ := List.get?_of_mem hy
      have hw := allNum?_get? hqsl j
      rw [hj] at hw
      have := hlall _ (windowAt_mem (List.get?_mem hw))
      injection this with h
    have hqsh_const : ∀ y ∈ qsh, y = c := by
      intro y hy
      obtain ⟨j, hj⟩ := List.get?_of_mem hy
      have hw := allNum?_get? hqsh j
      rw [hj] at hw
      have := hhall _ (windowAt_mem (List.get?_mem hw))
      injection this with h
    have hqsl_ne : qsl ≠ [] := by
      have h1 := allNum?_length hqsl
      rw [windowAt_length (by omega) hin'] at h1
      intro hcon
      rw [hcon] at h1
      simp at h1
      omega
    have hqsh_ne : qsh ≠ [] := by
      have h1 := allNum?_length hqsh
      rw [windowAt_length (by omega) hin'] at h1
      intro hcon
      rw [hcon] at h1
      simp at h1
      omega
    have hlwin : (rollingMin n low).get? i = some (PF.num c) := by
      rw [rollingMin, rollingOp_get?_filled (by omega) hin', winVal_eq_num hqsl,
        listMinQ_const hqsl_const hqsl_ne]
    have hhwin : (rollingMax n high).get? i = some (PF.num c) := by
      rw [rollingMax, rollingOp_get?_filled (by omega) hin', winVal_eq_num hqsh,
        listMaxQ_const hqsh_const hqsh_ne]
    have hcq := (hflat i hi).2.2
    have hnum := get?_zipWith_some (f := PF.sub) hcq hlwin
    have hden := get?_zipWith_some (f := PF.sub) hhwin hlwin
    rw [PF.num_sub, sub_self] at hnum hden
    have hdiv := get?_zipWith_some (f := PF.div) hnum hden
    have hmul := get?_map_some (f := fun x => PF.mul x (PF.num 100)) hdiv
    rw [kdj_rsv, fillna_get?, hmul]
    norm_num [PF.div]

/-- ewmCom of a constant list is that list. -/
theorem ewmCom_const (c q : ℚ) (m : ℕ) :
    ewmCom c (List.replicate m (PF.num q)) = List.replicate m (PF.num q) := by
  rw [ewmCom, ewmAlpha_const]

/-- C8: for an input series flat at a constant price (high = low = close
at every bar), calc_kdj's RSV series is 50 at every position (the
zero-range denominator produces no failure, only the NaN→50 fallback), and
consequently K, D and J are all the constant 50 series. -/
theorem c8_kdj_flat_rsv (high low close : List PF) (L : ℕ) (c : ℚ)
    (hLh : high.length = L) (hLl : low.length = L) (hLc : close.length = L)
    (hflat : ∀ j, j < L → high.get? j = some (PF.num c) ∧
      low.get? j = some (PF.num c) ∧ close.get? j = some (PF.num c)) :
    (∀ i, i < L → (kdj_rsv high low close 9).get? i = some (PF.num 50)) ∧
    (calc_kdj high low close).K = List.replicate L (PF.num 50) ∧
    (calc_kdj high low close).D = List.replicate L (PF.num 50) ∧
    (calc_kdj high low close).J = List.replicate L (PF.num 50) := by
  have hr : kdj_rsv high low close 9 = List.replicate L (PF.num 50) := by
    apply List.ext_get?
    intro i
    by_cases hi : i < L
    · rw [kdj_rsv_flat hLh hLl hLc (by norm_num) hflat i hi]
      simp [List.get?_eq_getElem?, List.getElem?_replicate, hi]
    · have h1 : (kdj_rsv high low close 9).get? i = none :=
        List.get?_eq_none.mpr (by rw [kdj_rsv_length hLh hLl hLc]; omega)
      have h2 : (List.replicate L (PF.num 50)).get? i = none :=
        List.get?_eq_none.mpr (by simp; omega)
      rw [h1, h2]
  have hK : (calc_kdj high low close).K = List.replicate L (PF.num 50) := by
    show ewmCom ((3 : ℚ) - 1) (kdj_rsv high low close 9) = _
    rw [hr, ewmCom_const]
  have hD : (calc_kdj high low close).D = List.replicate L (PF.num 50) := by
    show ewmCom ((3 : ℚ) - 1) (ewmCom ((3 : ℚ) - 1) (kdj_rsv high low close 9)) = _
    rw [hr, ewmCom_const, ewmCom_const]
  refine ⟨fun i hi => kdj_rsv_flat hLh hLl hLc (by norm_num) hflat i hi, hK, hD, ?_⟩
  show List.zipWith PF.sub ((calc_kdj high low close).K.map (fun x => PF.mul (PF.num 3) x))
      ((calc_kdj high low close).D.map (fun x => PF.mul (PF.num 2) x)) = _
  rw [hK, hD, List.map_replicate, List.map_replicate]
  simp only [List.zipWith_replicate, min_self, PF.num_mul, PF.num_sub]
  norm_num

/-- C8 witness: a concrete 12-bar flat series at price 7 has RSV 50 at the
last position and constant-50 K/D/J series. -/
theorem c8_kdj_flat_rsv_witness :
    (kdj_rsv (List.replicate 12 (PF.num 7)) (List.replicate 12 (PF.num 7))
      (List.replicate 12 (PF.num 7)) 9).get? 11 = some (PF.num 50) ∧
    (calc_kdj (List.replicate 12 (PF.num 7)) (List.replicate 12 (PF.num 7))
      (List.replicate 12 (PF.num 7))).K = List.replicate 12 (PF.num 50) := by
  have h := c8_kdj_flat_rsv (List.replicate 12 (PF.num 7)) (List.replicate 12 (PF.num 7))
    (List.replicate 12 (PF.num 7)) 12 7 (by decide) (by decide) (by decide)
    (by decide)
  exact ⟨h.1 11 (by decide), h.2.1⟩

/-- A well-formed bar: finite prices with low ≤ close ≤ high. -/
def barOK : PF → PF → PF → Bool
  | PF.num hq, PF.num lq, PF.num cq => decide (lq ≤ cq) && decide (cq ≤ hq)
  | _, _, _ => false

/-- Decidable well-formedness of the three price columns (every bar has
finite prices with low ≤ close ≤ high). -/
def wfBars (high low close : List PF) : Bool :=
  (List.zip (List.zip high low) close).all (fun p => barOK p.1.1 p.1.2 p.2)

/-- Reading off well-formedness at an index. -/
theorem wfBars_spec {high low close : List PF} {L : ℕ}
    (hLh : high.length = L) (hLl : low.length = L) (hLc : close.length = L)
    (hw : wfBars high low close = true) :
    ∀ j, j < L → ∃ hq lq cq, high.get? j = some (PF.num hq) ∧
      low.get? j = some (PF.num lq) ∧ close.get? j = some (PF.num cq) ∧
      lq ≤ cq ∧ cq ≤ hq := by
  intro j hj
  obtain ⟨h, hh⟩ := get?_isSome_of_lt (l := high) (i := j) (by omega)
  obtain ⟨l, hl⟩ := get?_isSome_of_lt (l := low) (i := j) (by omega)
  obtain ⟨c, hc⟩ := get?_isSome_of_lt (l := close) (i := j) (by omega)
  have hzip : (List.zip (List.zip high low) close).get? j = some ((h, l), c) := by
    rw [List.get?_zip_eq_some]
    exact ⟨by rw [List.get?_zip_eq_some]; exact ⟨hh, hl⟩, hc⟩
  have hmem := List.get?_mem hzip
  have hok := List.all_eq_true.mp hw _ hmem
  match h, l, c, hok with
  | PF.num hq, PF.num lq, PF.num cq, hok =>
    simp only [barOK, Bool.and_eq_true, decide_eq_true_eq] at hok
    exact ⟨hq, lq, cq, hh, hl, hc, hok.1, hok.2⟩

/-- Under well-formed bars, every entry of the filled RSV is finite: the
unfilled and zero-range positions are 50 and the rest are plain ratios. -/
theorem kdj_rsv_allNum {high low close : List PF} {n L : ℕ}
    (hLh : high.length = L) (hLl : low.length = L) (hLc : close.length = L)
    (hn : 1 ≤ n)
    (hw : ∀ j, j < L → ∃ hq lq cq, high.get? j = some (PF.num hq) ∧
      low.get? j = some (PF.num lq) ∧ close.get? j = some (PF.num cq) ∧
      lq ≤ cq ∧ cq ≤ hq) :
    ∀ x ∈ kdj_rsv high low close n, ∃ q, x = PF.num q := by
  intro x hx
  obtain ⟨i, hi⟩ := List.get?_of_mem hx
  obtain ⟨hlt, _⟩ := List.get?_eq_some.mp hi
  rw [kdj_rsv_length hLh hLl hLc] at hlt
  by_cases hin : i + 1 < n
  · rw [kdj_rsv_get?_unfilled hLh hLl hLc hlt hin] at hi
    injection hi with h
    exact ⟨50, h.symm⟩
  · obtain ⟨m, M, cq, heq, _, _⟩ :=
      kdj_rsv_get?_filled hLh hLl hLc hn hlt (by omega) hw
    rw [heq] at hi
    by_cases hz : M - m = 0
    · rw [if_pos hz] at hi
      injection hi with h
      exact ⟨50, h.symm⟩
    · rw [if_neg hz] at hi
      injection hi with h
      exact ⟨_, h.symm⟩

/-- Under well-formed bars, every entry of K, D and J is finite. -/
theorem calc_kdj_allNum {high low close : List PF} {L : ℕ}
    (hLh : high.length = L) (hLl : low.length = L) (hLc : close.length = L)
    (hw : wfBars high low close = true) :
    (∀ x ∈ (calc_kdj high low close).K, ∃ q, x = PF.num q) ∧
    (∀ x ∈ (calc_kdj high low close).D, ∃ q, x = PF.num q) ∧
    (∀ x ∈ (calc_kdj high low close).J, ∃ q, x = PF.num q) := by
  have hrsv := kdj_rsv_allNum (n := 9) hLh hLl hLc (by norm_num)
    (wfBars_spec hLh hLl hLc hw)
  have hK : ∀ x ∈ (calc_kdj high low close).K, ∃ q, x = PF.num q := by
    show ∀ x ∈ ewmCom ((3 : ℚ) - 1) (kdj_rsv high low close 9), ∃ q, x = PF.num q
    exact ewmAlpha_allNum hrsv
  have hD : ∀ x ∈ (calc_kdj high low close).D, ∃ q, x = PF.num q := by
    show ∀ x ∈ ewmCom ((3 : ℚ) - 1) (ewmCom ((3 : ℚ) - 1) (kdj_rsv high low close 9)),
      ∃ q, x = PF.num q
    exact ewmAlpha_allNum (ewmAlpha_allNum hrsv)
  refine ⟨hK, hD, ?_⟩
  intro x hx
  obtain ⟨i, hi⟩ := List.get?_of_mem hx
  have hi' : (List.zipWith PF.sub
      ((calc_kdj high low close).K.map (fun y => PF.mul (PF.num 3) y))
      ((calc_kdj high low close).D.map (fun y => PF.mul (PF.num 2) y))).get? i
      = some x := hi
  rw [List.get?_zipWith'] at hi'
  match hma : ((calc_kdj high low close).K.map (fun y => PF.mul (PF.num 3) y)).get? i with
  | none => rw [hma] at hi'; simp at hi'
  | some a =>
    match hmb : ((calc_kdj high low close).D.map (fun y => PF.mul (PF.num 2) y)).get? i with
    | none => rw [hma, hmb] at hi'; simp at hi'
    | some b =>
      rw [hma, hmb] at hi'
      simp only [Option.map_some', Option.some_bind, Option.some.injEq] at hi'
      rw [List.get?_map] at hma hmb
      obtain ⟨ka, hka, rfl⟩ := Option.map_eq_some'.mp hma
      obtain ⟨db, hdb, rfl⟩ := Option.map_eq_some'.mp hmb
      obtain ⟨kq, rfl⟩ := hK ka (List.get?_mem hka)
      obtain ⟨dq, rfl⟩ := hD db (List.get?_mem hdb)
      exact ⟨3 * kq - 2 * dq, by rw [← hi']; simp⟩

/- Unfolding lemmas for the structure fields of the indicator results (all
definitional). -/

/-- DIF of calc_macd, unfolded. -/
theorem calc_macd_DIF_eq (close : List PF) :
    (calc_macd close).DIF = List.zipWith PF.sub (ewmSpan 12 close) (ewmSpan 26 close) := rfl

/-- DEA of calc_macd, unfolded. -/
theorem calc_macd_DEA_eq (close : List PF) :
    (calc_macd close).DEA =
      ewmSpan 9 (List.zipWith PF.sub (ewmSpan 12 close) (ewmSpan 26 close)) := rfl

/-- signal of calc_macd, unfolded. -/
theorem calc_macd_signal_eq (close : List PF) :
    (calc_macd close).signal =
      get_macd_signal (List.zipWith PF.sub (ewmSpan 12 close) (ewmSpan 26 close))
        (ewmSpan 9 (List.zipWith PF.sub (ewmSpan 12 close) (ewmSpan 26 close))) := rfl

/-- K of calc_kdj, unfolded. -/
theorem calc_kdj_K_eq (high low close : List PF) :
    (calc_kdj high low close).K = ewmCom ((3 : ℚ) - 1) (kdj_rsv high low close 9) := rfl

/-- D of calc_kdj, unfolded. -/
theorem calc_kdj_D_eq (high low close : List PF) :
    (calc_kdj high low close).D =
      ewmCom ((3 : ℚ) - 1) (ewmCom ((3 : ℚ) - 1) (kdj_rsv high low close 9)) := rfl

/-- J of calc_kdj, unfolded. -/
theorem calc_kdj_J_eq (high low close : List PF) :
    (calc_kdj high low close).J =
      List.zipWith PF.sub
        ((calc_kdj high low close).K.map (fun x => PF.mul (PF.num 3) x))
        ((calc_kdj high low close).D.map (fun x => PF.mul (PF.num 2) x)) := rfl

/-- signal of calc_kdj, unfolded. -/
theorem calc_kdj_signal_eq (high low close : List PF) :
    (calc_kdj high low close).signal =
      get_kdj_signal (calc_kdj high low close).K (calc_kdj high low close).D := rfl

/-- The gain source series of calc_rsi (positive deltas, zero elsewhere). -/
theorem calc_rsi_RSI_eq (close : List PF) :
    (calc_rsi close).RSI =
      (List.zipWith PF.div
        (rollingMean 14 ((diffL close).map (fun x => if PF.gtb x (PF.num 0) then x else PF.num 0)))
        (rollingMean 14 (((diffL close).map (fun x => if PF.ltb x (PF.num 0) then x else PF.num 0)).map PF.neg))).map
        (fun r => PF.sub (PF.num 100) (PF.div (PF.num 100) (PF.add (PF.num 1) r))) := rfl

/-- signal of calc_rsi, unfolded. -/
theorem calc_rsi_signal_eq (close : List PF) :
    (calc_rsi close).signal = get_rsi_signal (calc_rsi close).RSI := rfl

/-- MID of calc_boll, unfolded. -/
theorem calc_boll_MID_eq (sf : ℚ → ℚ) (close : List PF) :
    (calc_boll sf close).MID = rollingMean 20 close := rfl

/-- UPPER of calc_boll, unfolded. -/
theorem calc_boll_UPPER_eq (sf : ℚ → ℚ) (close : List PF) :
    (calc_boll sf close).UPPER =
      List.zipWith PF.add (rollingMean 20 close)
        ((rollingStd sf 20 close).map (fun x => PF.mul (PF.num 2) x)) := rfl

/-- LOWER of calc_boll, unfolded. -/
theorem calc_boll_LOWER_eq (sf : ℚ → ℚ) (close : List PF) :
    (calc_boll sf close).LOWER =
      List.zipWith PF.sub (rollingMean 20 close)
        ((rollingStd sf 20 close).map (fun x => PF.mul (PF.num 2) x)) := rfl

/-- signal of calc_boll, unfolded. -/
theorem calc_boll_signal_eq (sf : ℚ → ℚ) (close : List PF) :
    (calc_boll sf close).signal =
      get_boll_signal close (calc_boll sf close).UPPER (calc_boll sf close).MID
        (calc_boll sf close).LOWER := rfl

/-- calc_atr, unfolded. -/
theorem calc_atr_eq (high low close : List PF) :
    calc_atr high low close =
      rollingMean 14 (List.zipWith maxSkipNan
        (List.zipWith maxSkipNan (List.zipWith PF.sub high low)
          ((List.zipWith PF.sub high (shift1 close)).map PF.abs))
        ((List.zipWith PF.sub low (shift1 close)).map PF.abs)) := rfl

/-- Before the 14-delta window fills, the RSI entry is NaN. -/
theorem calc_rsi_RSI_unfilled {close : List PF} {i : ℕ}
    (hi : i < close.length) (hip : i + 1 < 14) :
    (calc_rsi close).RSI.get? i = some PF.nan := by
  rw [calc_rsi_RSI_eq]
  have hg : (rollingMean 14 ((diffL close).map
      (fun x => if PF.gtb x (PF.num 0) then x else PF.num 0))).get? i = some PF.nan :=
    rollingOp_get?_unfilled (by simpa using hi) hip
  obtain ⟨b, hb⟩ := get?_isSome_of_lt
    (l := rollingMean 14 (((diffL close).map
      (fun x => if PF.ltb x (PF.num 0) then x else PF.num 0)).map PF.neg))
    (i := i) (by simpa using hi)
  have hrs := get?_zipWith_some (f := PF.div) hg hb
  rw [PF.nan_div] at hrs
  have := get?_map_some
    (f := fun r => PF.sub (PF.num 100) (PF.div (PF.num 100) (PF.add (PF.num 1) r))) hrs
  simpa using this

/-- Before the 20-bar window fills, the three Bollinger bands are NaN. -/
theorem calc_boll_unfilled {s : ℚ → ℚ} {c : List PF} {i : ℕ}
    (hi : i < c.length) (hip : i + 1 < 20) :
    (calc_boll s c).UPPER.get? i = some PF.nan ∧
    (calc_boll s c).MID.get? i = some PF.nan ∧
    (calc_boll s c).LOWER.get? i = some PF.nan := by
  have hmid : (rollingMean 20 c).get? i = some PF.nan :=
    rollingOp_get?_unfilled hi hip
  have hstd : (rollingStd s 20 c).get? i = some PF.nan :=
    rollingOp_get?_unfilled hi hip
  have hstd2 := get?_map_some (f := fun x => PF.mul (PF.num 2) x) hstd
  simp only [PF.mul_nan] at hstd2
  refine ⟨?_, ?_, ?_⟩
  · rw [calc_boll_UPPER_eq]
    have := get?_zipWith_some (f := PF.add) hmid hstd2
    simpa using this
  · rw [calc_boll_MID_eq]
    exact hmid
  · rw [calc_boll_LOWER_eq]
    have := get?_zipWith_some (f := PF.sub) hmid hstd2
    simpa using this

/-- C7 counterexample: on a 2-bar well-formed series, KDJ's K at position 0
(long before its 9-bar window could fill) is the number 50, not NaN — the
fillna(50) also fills the unfilled-window positions, so the claim that
every window-based indicator leaves pre-window positions undefined fails
for calc_kdj.  The window here has nonzero range, so this is not the noted
zero-range fallback. -/
theorem c7_counterexample :
    (calc_kdj [PF.num 2, PF.num 3] [PF.num 1, PF.num 2] [PF.num 1, PF.num 3]).K.get? 0
        = some (PF.num 50) ∧
      PF.num 50 ≠ PF.nan ∧ (0 : ℕ) + 1 < 9 := by
  decide

/-- C7 (amended): MA, RSI, BOLL, ATR and volume-MA leave every position
before their window has filled NaN; KDJ is the exception: its fillna(50)
also fills the unfilled-window positions, so K, D and J are numeric at
every position (for well-formed bars). -/
theorem c7_window_nan :
    (∀ (close : List PF) (pr : ℕ × List PF), pr ∈ calc_ma close →
      ∀ i, i < close.length → i + 1 < pr.1 → pr.2.get? i = some PF.nan) ∧
    (∀ (close : List PF) (i : ℕ), i < close.length → i + 1 < 14 →
      (calc_rsi close).RSI.get? i = some PF.nan) ∧
    (∀ (sf : ℚ → ℚ) (close : List PF) (i : ℕ), i < close.length → i + 1 < 20 →
      (calc_boll sf close).UPPER.get? i = some PF.nan ∧
      (calc_boll sf close).MID.get? i = some PF.nan ∧
      (calc_boll sf close).LOWER.get? i = some PF.nan) ∧
    (∀ (high low close : List PF) (L : ℕ), high.length = L → low.length = L →
      close.length = L → ∀ i, i < L → i + 1 < 14 →
      (calc_atr high low close).get? i = some PF.nan) ∧
    (∀ (volume : List PF) (pr : ℕ × List PF), pr ∈ calc_vol_ma volume →
      ∀ i, i < volume.length → i + 1 < pr.1 → pr.2.get? i = some PF.nan) ∧
    (∀ (high low close : List PF) (L : ℕ), high.length = L → low.length = L →
      close.length = L → wfBars high low close = true → ∀ i, i < L →
      (∃ q, (calc_kdj high low close).K.get? i = some (PF.num q)) ∧
      (∃ q, (calc_kdj high low close).D.get? i = some (PF.num q)) ∧
      (∃ q, (calc_kdj high low close).J.get? i = some (PF.num q))) := by
  refine ⟨?_, ?_, ?_, ?_, ?_, ?_⟩
  · intro close pr hpr i hi hip
    obtain ⟨p, hp, rfl⟩ := List.mem_map.mp hpr
    exact rollingOp_get?_unfilled hi hip
  · intro close i hi hip
    exact calc_rsi_RSI_unfilled hi hip
  · intro sf close i hi hip
    exact calc_boll_unfilled hi hip
  · intro high low close L hLh hLl hLc i hi hip
    rw [calc_atr_eq]
    refine rollingOp_get?_unfilled ?_ hip
    simp only [List.length_zipWith, List.length_map, shift1_length, hLh, hLl, hLc]
    omega
  · intro volume pr hpr i hi hip
    obtain ⟨p, hp, rfl⟩ := List.mem_map.mp hpr
    exact rollingOp_get?_unfilled hi hip
  · intro high low close L hLh hLl hLc hw i hi
    obtain ⟨hKa, hDa, hJa⟩ := calc_kdj_allNum hLh hLl hLc hw
    have hKlen : (calc_kdj high low close).K.length = L := by
      rw [calc_kdj_K_eq, ewmCom, ewmAlpha_length, kdj_rsv_length hLh hLl hLc]
    have hDlen : (calc_kdj high low close).D.length = L := by
      rw [calc_kdj_D_eq, ewmCom, ewmAlpha_length, ewmCom, ewmAlpha_length,
        kdj_rsv_length hLh hLl hLc]
    have hJlen : (calc_kdj high low close).J.length = L := by
      rw [calc_kdj_J_eq]
      simp [hKlen, hDlen]
    obtain ⟨xk, hxk⟩ := get?_isSome_of_lt (l := (calc_kdj high low close).K) (i := i)
      (by omega)
    obtain ⟨xd, hxd⟩ := get?_isSome_of_lt (l := (calc_kdj high low close).D) (i := i)
      (by omega)
    obtain ⟨xj, hxj⟩ := get?_isSome_of_lt (l := (calc_kdj high low close).J) (i := i)
      (by omega)
    obtain ⟨kq, rfl⟩ := hKa xk (List.get?_mem hxk)
    obtain ⟨dq, rfl⟩ := hDa xd (List.get?_mem hxd)
    obtain ⟨jq, rfl⟩ := hJa xj (List.get?_mem hxj)
    exact ⟨⟨kq, hxk⟩, ⟨dq, hxd⟩, ⟨jq, hxj⟩⟩

/-- C7 witness: the amended theorem applied to concrete series — MA5 and
RSI and BOLL at position 0 of a 3-bar close series are NaN, ATR at
position 0 of a 3-bar OHLC series is NaN, volume MA5 at position 0 is NaN,
and KDJ's K at position 0 of a well-formed 2-bar series is a number. -/
theorem c7_window_nan_witness :
    (rollingMean 5 [PF.num 1, PF.num 2, PF.num 3]).get? 0 = some PF.nan ∧
    (calc_rsi [PF.num 1, PF.num 2, PF.num 3]).RSI.get? 0 = some PF.nan ∧
    (calc_boll (fun q => q) [PF.num 1, PF.num 2, PF.num 3]).UPPER.get? 0 = some PF.nan ∧
    (calc_atr [PF.num 2, PF.num 3, PF.num 4] [PF.num 1, PF.num 2, PF.num 3]
      [PF.num 1, PF.num 2, PF.num 3]).get? 0 = some PF.nan ∧
    (rollingMean 5 [PF.num 9, PF.num 9, PF.num 9]).get? 0 = some PF.nan ∧
    (∃ q, (calc_kdj [PF.num 2, PF.num 3] [PF.num 1, PF.num 2]
      [PF.num 1, PF.num 3]).K.get? 0 = some (PF.num q)) :=
  ⟨c7_window_nan.1 [PF.num 1, PF.num 2, PF.num 3]
      (5, rollingMean 5 [PF.num 1, PF.num 2, PF.num 3]) (by decide) 0 (by decide) (by decide),
   c7_window_nan.2.1 [PF.num 1, PF.num 2, PF.num 3] 0 (by decide) (by decide),
   (c7_window_nan.2.2.1 (fun q => q) [PF.num 1, PF.num 2, PF.num 3] 0
      (by decide) (by decide)).1,
   c7_window_nan.2.2.2.1 [PF.num 2, PF.num 3, PF.num 4] [PF.num 1, PF.num 2, PF.num 3]
      [PF.num 1, PF.num 2, PF.num 3] 3 (by decide) (by decide) (by decide) 0
      (by decide) (by decide),
   c7_window_nan.2.2.2.2.1 [PF.num 9, PF.num 9, PF.num 9]
      (5, rollingMean 5 [PF.num 9, PF.num 9, PF.num 9]) (by decide) 0 (by decide) (by decide),
   ((c7_window_nan.2.2.2.2.2 [PF.num 2, PF.num 3] [PF.num 1, PF.num 2]
      [PF.num 1, PF.num 3] 2 (by decide) (by decide) (by decide) (by decide) 0
      (by decide)).1)⟩

/-- Length of ewmSpan. -/
@[simp] theorem ewmSpan_length (s : ℚ) (xs : List PF) :
    (ewmSpan s xs).length = xs.length := ewmAlpha_length _ _

/-- Length of ewmCom. -/
@[simp] theorem ewmCom_length (c : ℚ) (xs : List PF) :
    (ewmCom c xs).length = xs.length := ewmAlpha_length _ _

/-- get_macd_signal succeeds whenever DEA is as long as DIF. -/
theorem get_macd_signal_isSome {dif dea : List PF} (h : dea.length = dif.length) :
    ∃ s, get_macd_signal dif dea = some s := by
  by_cases h2 : dif.length < 2
  · exact ⟨"数据不足", by unfold get_macd_signal; rw [if_pos h2]⟩
  · obtain ⟨d1, hd1⟩ := ilocBack_isSome (l := dif) (k := 1) (by omega) (by omega)
    obtain ⟨d2, hd2⟩ := ilocBack_isSome (l := dif) (k := 2) (by omega) (by omega)
    obtain ⟨e1, he1⟩ := ilocBack_isSome (l := dea) (k := 1) (by omega) (by omega)
    obtain ⟨e2, he2⟩ := ilocBack_isSome (l := dea) (k := 2) (by omega) (by omega)
    rw [← Option.isSome_iff_exists]
    unfold get_macd_signal
    rw [if_neg h2, hd1, hd2, he1, he2]
    rfl

/-- get_kdj_signal succeeds whenever D is as long as K. -/
theorem get_kdj_signal_isSome {k d : List PF} (h : d.length = k.length) :
    ∃ s, get_kdj_signal k d = some s := by
  by_cases h2 : k.length < 2
  · exact ⟨"数据不足", by unfold get_kdj_signal; rw [if_pos h2]⟩
  · obtain ⟨k1, hk1⟩ := ilocBack_isSome (l := k) (k := 1) (by omega) (by omega)
    obtain ⟨k2, hk2⟩ := ilocBack_isSome (l := k) (k := 2) (by omega) (by omega)
    obtain ⟨d1, hd1⟩ := ilocBack_isSome (l := d) (k := 1) (by omega) (by omega)
    obtain ⟨d2, hd2⟩ := ilocBack_isSome (l := d) (k := 2) (by omega) (by omega)
    rw [← Option.isSome_iff_exists]
    unfold get_kdj_signal
    rw [if_neg h2, hk1, hk2, hd1, hd2]
    rfl

/-- get_rsi_signal always succeeds. -/
theorem get_rsi_signal_isSome (rsi : List PF) : ∃ s, get_rsi_signal rsi = some s := by
  by_cases h2 : rsi.length < 1
  · exact ⟨"数据不足", by unfold get_rsi_signal; rw [if_pos h2]⟩
  · obtain ⟨r, hr⟩ := ilocBack_isSome (l := rsi) (k := 1) (by omega) (by omega)
    rw [← Option.isSome_iff_exists]
    unfold get_rsi_signal
    rw [if_neg h2, hr]
    rfl

/-- get_boll_signal succeeds whenever the bands are as long as close. -/
theorem get_boll_signal_isSome {close upper mid lower : List PF}
    (hu : upper.length = close.length) (hm : mid.length = close.length)
    (hl : lower.length = close.length) :
    ∃ s, get_boll_signal close upper mid lower = some s := by
  by_cases h2 : close.length < 1
  · exact ⟨"数据不足", by unfold get_boll_signal; rw [if_pos h2]⟩
  · obtain ⟨p, hp⟩ := ilocBack_isSome (l := close) (k := 1) (by omega) (by omega)
    obtain ⟨u, hu'⟩ := ilocBack_isSome (l := upper) (k := 1) (by omega) (by omega)
    obtain ⟨m, hm'⟩ := ilocBack_isSome (l := mid) (k := 1) (by omega) (by omega)
    obtain ⟨l, hl'⟩ := ilocBack_isSome (l := lower) (k := 1) (by omega) (by omega)
    rw [← Option.isSome_iff_exists]
    unfold get_boll_signal
    rw [if_neg h2, hp, hu', hm', hl']
    rfl

/-- detect_trend succeeds on a non-empty close series. -/
theorem detect_trend_isSome {c : List PF} (h : 1 ≤ c.length) :
    ∃ s, detect_trend c = some s := by
  obtain ⟨s1, hs1⟩ := ilocBack_isSome (l := rollingMean 20 c) (k := 1)
    (by omega) (by simp; omega)
  obtain ⟨l1, hl1⟩ := ilocBack_isSome (l := rollingMean 60 c) (k := 1)
    (by omega) (by simp; omega)
  obtain ⟨c1, hc1⟩ := ilocBack_isSome (l := c) (k := 1) (by omega) (by omega)
  rw [← Option.isSome_iff_exists]
  unfold detect_trend
  rw [if_neg (by simp only [Bool.or_eq_true, decide_eq_true_eq, rollingMean_length]; omega),
    hs1, hl1, hc1]
  rfl

/-- find_support_resistance succeeds on non-empty columns of equal length. -/
theorem find_support_resistance_isSome {p q r : List PF}
    (h : 1 ≤ q.length) (hh : p.length = q.length)
    (hc : r.length = q.length) :
    ∃ sr, find_support_resistance p q r = some sr := by
  obtain ⟨s, hs⟩ := ilocBack_isSome (l := rollingMin 20 q) (k := 1)
    (by omega) (by simp; omega)
  obtain ⟨r1, hr1⟩ := ilocBack_isSome (l := rollingMax 20 p) (k := 1)
    (by omega) (by simp; omega)
  obtain ⟨p1, hp1⟩ := ilocBack_isSome (l := p) (k := 1) (by omega) (by omega)
  obtain ⟨q1, hq1⟩ := ilocBack_isSome (l := q) (k := 1) (by omega) (by omega)
  obtain ⟨c1, hc1⟩ := ilocBack_isSome (l := r) (k := 1) (by omega) (by omega)
  rw [← Option.isSome_iff_exists]
  unfold find_support_resistance
  rw [hs, hr1, hp1, hq1, hc1]
  rfl

/-- The MACD signal of the pipeline succeeds on any close series. -/
theorem calc_macd_signal_isSome (close : List PF) :
    ∃ s, (calc_macd close).signal = some s := by
  rw [calc_macd_signal_eq]
  exact get_macd_signal_isSome (by simp)

/-- The KDJ signal of the pipeline succeeds on equal-length columns. -/
theorem calc_kdj_signal_isSome (high low close : List PF) :
    ∃ s, (calc_kdj high low close).signal = some s := by
  rw [calc_kdj_signal_eq]
  exact get_kdj_signal_isSome (by rw [calc_kdj_K_eq, calc_kdj_D_eq]; simp)

/-- The RSI signal of the pipeline always succeeds. -/
theorem calc_rsi_signal_isSome (close : List PF) :
    ∃ s, (calc_rsi close).signal = some s := by
  rw [calc_rsi_signal_eq]
  exact get_rsi_signal_isSome _

/-- The BOLL signal of the pipeline always succeeds. -/
theorem calc_boll_signal_isSome (sf : ℚ → ℚ) (close : List PF) :
    ∃ s, (calc_boll sf close).signal = some s := by
  rw [calc_boll_signal_eq]
  exact get_boll_signal_isSome (by rw [calc_boll_UPPER_eq]; simp)
    (by rw [calc_boll_MID_eq]; simp) (by rw [calc_boll_LOWER_eq]; simp)

set_option maxHeartbeats 1000000 in
/-- C2 (amended): for every input whose columns have a common length of at
least 2 bars, analyze_stock constructs and returns the full bundle; no
per-indicator condition aborts construction.  (The hard failure occurs
exactly on empty and single-bar series, the latter at close.iloc[-2].) -/
theorem c2_bundle_total (sf : ℚ → ℚ) (df : StockDF) (L : ℕ)
    (hc : df.close.length = L) (hh : df.high.length = L)
    (hl : df.low.length = L) (hv : df.volume.length = L) (h2 : 2 ≤ L) :
    ∃ b, analyze_stock sf df = some b := by
  obtain ⟨t, ht⟩ := detect_trend_isSome (c := df.close) (by omega)
  obtain ⟨sr, hsr⟩ := find_support_resistance_isSome (p := df.high)
    (q := df.low) (r := df.close) (by omega) (by omega) (by omega)
  obtain ⟨ms, hms⟩ := calc_macd_signal_isSome df.close
  obtain ⟨ks, hks⟩ := calc_kdj_signal_isSome df.high df.low df.close
  obtain ⟨rsg, hrsg⟩ := calc_rsi_signal_isSome df.close
  obtain ⟨bs, hbs⟩ := calc_boll_signal_isSome sf df.close
  have hdifL : (calc_macd df.close).DIF.length = L := by
    rw [calc_macd_DIF_eq]; simp [hc]
  have hdeaL : (calc_macd df.close).DEA.length = L := by
    rw [calc_macd_DEA_eq]; simp [hc]
  have hKL : (calc_kdj df.high df.low df.close).K.length = L := by
    rw [calc_kdj_K_eq, ewmCom_length, kdj_rsv_length hh hl hc]
  have hDL : (calc_kdj df.high df.low df.close).D.length = L := by
    rw [calc_kdj_D_eq, ewmCom_length, ewmCom_length, kdj_rsv_length hh hl hc]
  have hJL : (calc_kdj df.high df.low df.close).J.length = L := by
    rw [calc_kdj_J_eq]; simp [hKL, hDL]
  have hRL : (calc_rsi df.close).RSI.length = L := by
    rw [calc_rsi_RSI_eq]; simp [hc]
  have hUL : (calc_boll sf df.close).UPPER.length = L := by
    rw [calc_boll_UPPER_eq]; simp [hc]
  have hML : (calc_boll sf df.close).MID.length = L := by
    rw [calc_boll_MID_eq]; simp [hc]
  have hLL : (calc_boll sf df.close).LOWER.length = L := by
    rw [calc_boll_LOWER_eq]; simp [hc]
  have hAL : (calc_atr df.high df.low df.close).length = L := by
    rw [calc_atr_eq]; simp only [rollingMean_length, List.length_zipWith,
      List.length_map, shift1_length, hh, hl, hc]; omega
  obtain ⟨c1, hc1⟩ := ilocBack_isSome (l := df.close) (k := 1) (by omega) (by omega)
  obtain ⟨c2, hc2⟩ := ilocBack_isSome (l := df.close) (k := 2) (by omega) (by omega)
  obtain ⟨v1, hv1⟩ := ilocBack_isSome (l := (calc_macd df.close).DIF) (k := 1)
    (by omega) (by omega)
  obtain ⟨v2, hv2⟩ := ilocBack_isSome (l := (calc_macd df.close).DEA) (k := 1)
    (by omega) (by omega)
  obtain ⟨k1, hk1⟩ := ilocBack_isSome (l := (calc_kdj df.high df.low df.close).K) (k := 1)
    (by omega) (by omega)
  obtain ⟨d1, hd1⟩ := ilocBack_isSome (l := (calc_kdj df.high df.low df.close).D) (k := 1)
    (by omega) (by omega)
  obtain ⟨j1, hj1⟩ := ilocBack_isSome (l := (calc_kdj df.high df.low df.close).J) (k := 1)
    (by omega) (by omega)
  obtain ⟨r1, hr1⟩ := ilocBack_isSome (l := (calc_rsi df.close).RSI) (k := 1)
    (by omega) (by omega)
  obtain ⟨u1, hu1⟩ := ilocBack_isSome (l := (calc_boll sf df.close).UPPER) (k := 1)
    (by omega) (by omega)
  obtain ⟨m1, hm1⟩ := ilocBack_isSome (l := (calc_boll sf df.close).MID) (k := 1)
    (by omega) (by omega)
  obtain ⟨l1, hl1⟩ := ilocBack_isSome (l := (calc_boll sf df.close).LOWER) (k := 1)
    (by omega) (by omega)
  obtain ⟨a1, ha1⟩ := ilocBack_isSome (l := calc_atr df.high df.low df.close) (k := 1)
    (by omega) (by omega)
  rw [← Option.isSome_iff_exists]
  simp only [analyze_stock, ht, hsr, hms, hks, hrsg, hbs, hc1, hc2, hv1, hv2,
    hk1, hd1, hj1, hr1, hu1, hm1, hl1, ha1]
  rfl

set_option maxHeartbeats 1000000 in
/-- On a single-bar input every indicator still succeeds, but the bundle
construction fails at close.iloc[-2] (the period-over-period change), so
analyze_stock raises. -/
theorem analyze_stock_one_bar (sf : ℚ → ℚ) (df : StockDF)
    (hc : df.close.length = 1) (hh : df.high.length = 1)
    (hl : df.low.length = 1) (hv : df.volume.length = 1) :
    analyze_stock sf df = none := by
  obtain ⟨t, ht⟩ := detect_trend_isSome (c := df.close) (by omega)
  obtain ⟨sr, hsr⟩ := find_support_resistance_isSome (p := df.high)
    (q := df.low) (r := df.close) (by omega) (by omega) (by omega)
  obtain ⟨ms, hms⟩ := calc_macd_signal_isSome df.close
  obtain ⟨ks, hks⟩ := calc_kdj_signal_isSome df.high df.low df.close
  obtain ⟨rsg, hrsg⟩ := calc_rsi_signal_isSome df.close
  obtain ⟨bs, hbs⟩ := calc_boll_signal_isSome sf df.close
  have hdifL : (calc_macd df.close).DIF.length = 1 := by
    rw [calc_macd_DIF_eq]; simp [hc]
  have hdeaL : (calc_macd df.close).DEA.length = 1 := by
    rw [calc_macd_DEA_eq]; simp [hc]
  have hKL : (calc_kdj df.high df.low df.close).K.length = 1 := by
    rw [calc_kdj_K_eq, ewmCom_length, kdj_rsv_length hh hl hc]
  have hDL : (calc_kdj df.high df.low df.close).D.length = 1 := by
    rw [calc_kdj_D_eq, ewmCom_length, ewmCom_length, kdj_rsv_length hh hl hc]
  have hJL : (calc_kdj df.high df.low df.close).J.length = 1 := by
    rw [calc_kdj_J_eq]; simp [hKL, hDL]
  have hRL : (calc_rsi df.close).RSI.length = 1 := by
    rw [calc_rsi_RSI_eq]; simp [hc]
  have hUL : (calc_boll sf df.close).UPPER.length = 1 := by
    rw [calc_boll_UPPER_eq]; simp [hc]
  have hML : (calc_boll sf df.close).MID.length = 1 := by
    rw [calc_boll_MID_eq]; simp [hc]
  have hLL : (calc_boll sf df.close).LOWER.length = 1 := by
    rw [calc_boll_LOWER_eq]; simp [hc]
  have hAL : (calc_atr df.high df.low df.close).length = 1 := by
    rw [calc_atr_eq]; simp only [rollingMean_length, List.length_zipWith,
      List.length_map, shift1_length, hh, hl, hc]; omega
  obtain ⟨c1, hc1⟩ := ilocBack_isSome (l := df.close) (k := 1) (by omega) (by omega)
  have hc2 : ilocBack df.close 2 = none := ilocBack_eq_none (by omega)
  obtain ⟨v1, hv1⟩ := ilocBack_isSome (l := (calc_macd df.close).DIF) (k := 1)
    (by omega) (by omega)
  obtain ⟨v2, hv2⟩ := ilocBack_isSome (l := (calc_macd df.close).DEA) (k := 1)
    (by omega) (by omega)
  obtain ⟨k1, hk1⟩ := ilocBack_isSome (l := (calc_kdj df.high df.low df.close).K) (k := 1)
    (by omega) (by omega)
  obtain ⟨d1, hd1⟩ := ilocBack_isSome (l := (calc_kdj df.high df.low df.close).D) (k := 1)
    (by omega) (by omega)
  obtain ⟨j1, hj1⟩ := ilocBack_isSome (l := (calc_kdj df.high df.low df.close).J) (k := 1)
    (by omega) (by omega)
  obtain ⟨r1, hr1⟩ := ilocBack_isSome (l := (calc_rsi df.close).RSI) (k := 1)
    (by omega) (by omega)
  obtain ⟨u1, hu1⟩ := ilocBack_isSome (l := (calc_boll sf df.close).UPPER) (k := 1)
    (by omega) (by omega)
  obtain ⟨m1, hm1⟩ := ilocBack_isSome (l := (calc_boll sf df.close).MID) (k := 1)
    (by omega) (by omega)
  obtain ⟨l1, hl1⟩ := ilocBack_isSome (l := (calc_boll sf df.close).LOWER) (k := 1)
    (by omega) (by omega)
  obtain ⟨a1, ha1⟩ := ilocBack_isSome (l := calc_atr df.high df.low df.close) (k := 1)
    (by omega) (by omega)
  simp only [analyze_stock, ht, hsr, hms, hks, hrsg, hbs, hc1, hc2, hv1, hv2,
    hk1, hd1, hj1, hr1, hu1, hm1, hl1, ha1]

/-- C2 counterexample: a non-empty (single-bar) series makes analyze_stock
fail: computing the period-over-period change accesses close.iloc[-2],
which raises on one bar.  So "every non-empty input series yields a
bundle" is false. -/
theorem c2_counterexample :
    analyze_stock (fun q => q)
        { close := [PF.num 10], high := [PF.num 11], low := [PF.num 9],
          volume := [PF.num 5] } = none ∧
      ([PF.num 10] : List PF) ≠ [] :=
  ⟨analyze_stock_one_bar (fun q => q) _ rfl rfl rfl rfl, by decide⟩

/-- C2 witness: the amended theorem at a concrete 2-bar input yields a
bundle. -/
theorem c2_bundle_total_witness :
    ∃ b, analyze_stock (fun q => q)
        { close := [PF.num 10, PF.num 11], high := [PF.num 11, PF.num 12],
          low := [PF.num 9, PF.num 10], volume := [PF.num 5, PF.num 6] } = some b :=
  c2_bundle_total (fun q => q) _ 2 rfl rfl rfl rfl (by omega)

/-- Length of the RSI series. -/
@[simp] theorem calc_rsi_RSI_length (close : List PF) :
    (calc_rsi close).RSI.length = close.length := by
  rw [calc_rsi_RSI_eq]; simp

/-- On a series shorter than the RSI window (but non-empty), the RSI
signal is the neutral branch formatted with the NaN value. -/
theorem calc_rsi_signal_short {c : List PF}
    (h1 : 1 ≤ c.length) (h14 : c.length < 14) :
    (calc_rsi c).signal = some "中性(nan)" := by
  rw [calc_rsi_signal_eq]
  have hr : ilocBack (calc_rsi c).RSI 1 = some PF.nan := by
    rw [ilocBack_of_le (by omega) (by simp; omega), calc_rsi_RSI_length]
    exact calc_rsi_RSI_unfilled (by omega) (by omega)
  unfold get_rsi_signal
  rw [if_neg (by simp only [calc_rsi_RSI_length]; omega), hr]
  rfl

/-- On a series shorter than the Bollinger window (but non-empty), the
BOLL signal falls through the NaN comparisons to the below-mid branch. -/
theorem calc_boll_signal_short {s : ℚ → ℚ} {c : List PF}
    (h1 : 1 ≤ c.length) (h20 : c.length < 20) :
    (calc_boll s c).signal = some "中轨下方-偏空" := by
  rw [calc_boll_signal_eq]
  obtain ⟨hu, hm, hl⟩ := calc_boll_unfilled (s := s) (c := c)
    (i := c.length - 1) (by omega) (by omega)
  obtain ⟨p, hp⟩ := ilocBack_isSome (l := c) (k := 1) (by omega) (by omega)
  have hu' : ilocBack (calc_boll s c).UPPER 1 = some PF.nan := by
    rw [ilocBack_of_le (by omega) (by rw [calc_boll_UPPER_eq]; simp; omega)]
    rw [calc_boll_UPPER_eq] at hu ⊢
    simpa using hu
  have hm' : ilocBack (calc_boll s c).MID 1 = some PF.nan := by
    rw [ilocBack_of_le (by omega) (by rw [calc_boll_MID_eq]; simp; omega)]
    rw [calc_boll_MID_eq] at hm ⊢
    simpa using hm
  have hl' : ilocBack (calc_boll s c).LOWER 1 = some PF.nan := by
    rw [ilocBack_of_le (by omega) (by rw [calc_boll_LOWER_eq]; simp; omega)]
    rw [calc_boll_LOWER_eq] at hl ⊢
    simpa using hl
  unfold get_boll_signal
  rw [if_neg (by omega), hp, hu', hm', hl']
  simp [PF.gtb]

/-- On a non-empty series shorter than the short trend window, both trend
MAs are NaN at the last position and the trend is the sideways label. -/
theorem detect_trend_short {close : List PF}
    (h1 : 1 ≤ close.length) (h20 : close.length < 20) :
    detect_trend close = some "震荡整理" := by
  have hs : ilocBack (rollingMean 20 close) 1 = some PF.nan := by
    rw [ilocBack_of_le (by omega) (by simp; omega), rollingMean_length]
    exact rollingOp_get?_unfilled (by omega) (by omega)
  have hl : ilocBack (rollingMean 60 close) 1 = some PF.nan := by
    rw [ilocBack_of_le (by omega) (by simp; omega), rollingMean_length]
    exact rollingOp_get?_unfilled (by omega) (by omega)
  obtain ⟨c1, hc1⟩ := ilocBack_isSome (l := close) (k := 1) (by omega) (by omega)
  unfold detect_trend
  rw [if_neg (by simp only [Bool.or_eq_true, decide_eq_true_eq, rollingMean_length]; omega),
    hs, hl, hc1]
  simp [PF.gtb]

/-- On equal-length columns of length in [2, 9), the KDJ K and D series
are constant 50 (all RSV windows unfilled), so the KDJ signal is the
neutral/choppy label. -/
theorem calc_kdj_signal_short {high low close : List PF} {L : ℕ}
    (hLh : high.length = L) (hLl : low.length = L) (hLc : close.length = L)
    (h2 : 2 ≤ L) (h9 : L < 9) :
    (calc_kdj high low close).signal = some "中性震荡" := by
  have hr : kdj_rsv high low close 9 = List.replicate L (PF.num 50) := by
    apply List.ext_get?
    intro i
    by_cases hi : i < L
    · rw [kdj_rsv_get?_unfilled hLh hLl hLc hi (by omega)]
      simp [List.get?_eq_getElem?, List.getElem?_replicate, hi]
    · have ha : (kdj_rsv high low close 9).get? i = none :=
        List.get?_eq_none.mpr (by rw [kdj_rsv_length hLh hLl hLc]; omega)
      have hb : (List.replicate L (PF.num 50)).get? i = none :=
        List.get?_eq_none.mpr (by simp; omega)
      rw [ha, hb]
  have hK : (calc_kdj high low close).K = List.replicate L (PF.num 50) := by
    rw [calc_kdj_K_eq, hr, ewmCom_const]
  have hD : (calc_kdj high low close).D = List.replicate L (PF.num 50) := by
    rw [calc_kdj_D_eq, hr, ewmCom_const, ewmCom_const]
  rw [calc_kdj_signal_eq, hK, hD]
  have hiloc1 : ilocBack (List.replicate L (PF.num 50)) 1 = some (PF.num 50) := by
    rw [ilocBack_of_le (by omega) (by simp; omega)]
    simp [List.get?_eq_getElem?, List.getElem?_replicate]
    omega
  have hiloc2 : ilocBack (List.replicate L (PF.num 50)) 2 = some (PF.num 50) := by
    rw [ilocBack_of_le (by omega) (by simp; omega)]
    simp [List.get?_eq_getElem?, List.getElem?_replicate]
    omega
  unfold get_kdj_signal
  rw [if_neg (by simp; omega), hiloc1, hiloc2]
  norm_num

/-- A MACD signal computed past the length guard is never the
insufficient-data label. -/
theorem get_macd_signal_ne_insufficient {dif dea : List PF} {s : String}
    (h2 : ¬ dif.length < 2) (h : get_macd_signal dif dea = some s) :
    s ≠ "数据不足" := by
  unfold get_macd_signal at h
  rw [if_neg h2] at h
  match hd1 : ilocBack dif 1, hd2 : ilocBack dif 2, he1 : ilocBack dea 1,
      he2 : ilocBack dea 2 with
  | some d1, some d2, some e1, some e2 =>
    rw [hd1, hd2, he1, he2] at h
    simp only [Option.some.injEq] at h
    subst h
    split_ifs <;> decide
  | none, _, _, _ => rw [hd1] at h; simp at h
  | some _, none, _, _ => rw [hd1, hd2] at h; simp at h
  | some _, some _, none, _ => rw [hd1, hd2, he1] at h; simp at h
  | some _, some _, some _, none => rw [hd1, hd2, he1, he2] at h; simp at h

set_option maxHeartbeats 1000000 in
/-- C1 (amended): on every 5-bar series (numeric last two closes, nonzero
prior close), analyze_stock still constructs the bundle and the current
price and change are defined, but no indicator reports 数据不足
(insufficient data): the NaN comparisons fall through, so RSI reports
中性(nan), BOLL reports 中轨下方-偏空, KDJ reports 中性震荡, the trend is
震荡整理, and MACD reports a genuine (EWM-based) signal. -/
theorem c1_five_bars (sf : ℚ → ℚ) (df : StockDF) (c1v c2v : ℚ)
    (hc : df.close.length = 5) (hh : df.high.length = 5)
    (hl : df.low.length = 5) (hv : df.volume.length = 5)
    (h1 : ilocBack df.close 1 = some (PF.num c1v))
    (h2 : ilocBack df.close 2 = some (PF.num c2v)) (hc2 : c2v ≠ 0) :
    ∃ b, analyze_stock sf df = some b ∧
      b.priceCurrent.isNum = true ∧ b.priceChangePct.isNum = true ∧
      b.rsiSignal = "中性(nan)" ∧ b.bollSignal = "中轨下方-偏空" ∧
      b.kdjSignal = "中性震荡" ∧ b.trend = "震荡整理" ∧
      b.macdSignal ≠ "数据不足" := by
  have ht : detect_trend df.close = some "震荡整理" :=
    detect_trend_short (by omega) (by omega)
  have hrsg : (calc_rsi df.close).signal = some "中性(nan)" :=
    calc_rsi_signal_short (by omega) (by omega)
  have hbs : (calc_boll sf df.close).signal = some "中轨下方-偏空" :=
    calc_boll_signal_short (by omega) (by omega)
  have hks : (calc_kdj df.high df.low df.close).signal = some "中性震荡" :=
    calc_kdj_signal_short hh hl hc (by omega) (by omega)
  obtain ⟨ms, hms⟩ := calc_macd_signal_isSome df.close
  have hdifL : (calc_macd df.close).DIF.length = 5 := by
    rw [calc_macd_DIF_eq]; simp [hc]
  have hmsne : ms ≠ "数据不足" := by
    rw [calc_macd_signal_eq] at hms
    refine get_macd_signal_ne_insufficient ?_ hms
    simp [hc]
  obtain ⟨sr, hsr⟩ := find_support_resistance_isSome (p := df.high)
    (q := df.low) (r := df.close) (by omega) (by omega) (by omega)
  have hdeaL : (calc_macd df.close).DEA.length = 5 := by
    rw [calc_macd_DEA_eq]; simp [hc]
  have hKL : (calc_kdj df.high df.low df.close).K.length = 5 := by
    rw [calc_kdj_K_eq, ewmCom_length, kdj_rsv_length hh hl hc]
  have hDL : (calc_kdj df.high df.low df.close).D.length = 5 := by
    rw [calc_kdj_D_eq, ewmCom_length, ewmCom_length, kdj_rsv_length hh hl hc]
  have hJL : (calc_kdj df.high df.low df.close).J.length = 5 := by
    rw [calc_kdj_J_eq]; simp [hKL, hDL]
  have hRL : (calc_rsi df.close).RSI.length = 5 := by simp [hc]
  have hUL : (calc_boll sf df.close).UPPER.length = 5 := by
    rw [calc_boll_UPPER_eq]; simp [hc]
  have hML : (calc_boll sf df.close).MID.length = 5 := by
    rw [calc_boll_MID_eq]; simp [hc]
  have hLL : (calc_boll sf df.close).LOWER.length = 5 := by
    rw [calc_boll_LOWER_eq]; simp [hc]
  have hAL : (calc_atr df.high df.low df.close).length = 5 := by
    rw [calc_atr_eq]; simp only [rollingMean_length, List.length_zipWith,
      List.length_map, shift1_length, hh, hl, hc]; omega
  obtain ⟨v1, hv1⟩ := ilocBack_isSome (l := (calc_macd df.close).DIF) (k := 1)
    (by omega) (by omega)
  obtain ⟨v2, hv2⟩ := ilocBack_isSome (l := (calc_macd df.close).DEA) (k := 1)
    (by omega) (by omega)
  obtain ⟨k1, hk1⟩ := ilocBack_isSome (l := (calc_kdj df.high df.low df.close).K) (k := 1)
    (by omega) (by omega)
  obtain ⟨d1, hd1⟩ := ilocBack_isSome (l := (calc_kdj df.high df.low df.close).D) (k := 1)
    (by omega) (by omega)
  obtain ⟨j1, hj1⟩ := ilocBack_isSome (l := (calc_kdj df.high df.low df.close).J) (k := 1)
    (by omega) (by omega)
  obtain ⟨r1, hr1⟩ := ilocBack_isSome (l := (calc_rsi df.close).RSI) (k := 1)
    (by omega) (by omega)
  obtain ⟨u1, hu1⟩ := ilocBack_isSome (l := (calc_boll sf df.close).UPPER) (k := 1)
    (by omega) (by omega)
  obtain ⟨m1, hm1⟩ := ilocBack_isSome (l := (calc_boll sf df.close).MID) (k := 1)
    (by omega) (by omega)
  obtain ⟨l1, hl1⟩ := ilocBack_isSome (l := (calc_boll sf df.close).LOWER) (k := 1)
    (by omega) (by omega)
  obtain ⟨a1, ha1⟩ := ilocBack_isSome (l := calc_atr df.high df.low df.close) (k := 1)
    (by omega) (by omega)
  have hdiv : PF.div (PF.num c1v) (PF.num c2v) = PF.num (c1v / c2v) := by
    simp [PF.div, hc2]
  simp only [analyze_stock, ht, hsr, hms, hks, hrsg, hbs, h1, h2, hv1, hv2,
    hk1, hd1, hj1, hr1, hu1, hm1, hl1, ha1]
  refine ⟨_, rfl, rfl, ?_, rfl, rfl, rfl, rfl, hmsne⟩
  rw [hdiv]
  simp only [PF.num_sub, PF.num_mul]
  rfl

/-- C1 counterexample: a concrete 5-bar series constructs a bundle whose
RSI and BOLL signals are not 数据不足 (they are the NaN-fallthrough
strings), refuting "every indicator family reports insufficient data on a
5-bar series". -/
theorem c1_counterexample :
    ∃ b, analyze_stock (fun q => q)
        { close := [PF.num 10, PF.num 11, PF.num 12, PF.num 13, PF.num 14],
          high := [PF.num 11, PF.num 12, PF.num 13, PF.num 14, PF.num 15],
          low := [PF.num 9, PF.num 10, PF.num 11, PF.num 12, PF.num 13],
          volume := [PF.num 1, PF.num 1, PF.num 1, PF.num 1, PF.num 1] } = some b ∧
      b.rsiSignal ≠ "数据不足" ∧ b.bollSignal ≠ "数据不足" ∧
      b.kdjSignal ≠ "数据不足" ∧ b.trend ≠ "数据不足" := by
  obtain ⟨b, hb, _, _, hrsi, hboll, hkdj, htr, _⟩ :=
    c1_five_bars (fun q => q)
      { close := [PF.num 10, PF.num 11, PF.num 12, PF.num 13, PF.num 14],
        high := [PF.num 11, PF.num 12, PF.num 13, PF.num 14, PF.num 15],
        low := [PF.num 9, PF.num 10, PF.num 11, PF.num 12, PF.num 13],
        volume := [PF.num 1, PF.num 1, PF.num 1, PF.num 1, PF.num 1] }
      14 13 rfl rfl rfl rfl rfl rfl (by norm_num)
  refine ⟨b, hb, ?_, ?_, ?_, ?_⟩
  · rw [hrsi]; decide
  · rw [hboll]; decide
  · rw [hkdj]; decide
  · rw [htr]; decide

/-- C1 witness: the amended theorem at a concrete 5-bar series. -/
theorem c1_five_bars_witness :
    ∃ b, analyze_stock (fun q => q)
        { close := [PF.num 20, PF.num 21, PF.num 22, PF.num 23, PF.num 24],
          high := [PF.num 21, PF.num 22, PF.num 23, PF.num 24, PF.num 25],
          low := [PF.num 19, PF.num 20, PF.num 21, PF.num 22, PF.num 23],
          volume := [PF.num 2, PF.num 2, PF.num 2, PF.num 2, PF.num 2] } = some b ∧
      b.priceCurrent.isNum = true ∧ b.priceChangePct.isNum = true ∧
      b.rsiSignal = "中性(nan)" ∧ b.bollSignal = "中轨下方-偏空" ∧
      b.kdjSignal = "中性震荡" ∧ b.trend = "震荡整理" ∧
      b.macdSignal ≠ "数据不足" :=
  c1_five_bars (fun q => q) _ 24 23 rfl rfl rfl rfl rfl rfl (by simp)

/-- A rolling statistic at the last position, once the window has filled. -/
theorem rollingOp_iloc1 {f : List ℚ → ℚ} {n : ℕ} {xs : List PF}
    (hn : 1 ≤ n) (hlen : n ≤ xs.length) :
    ilocBack (rollingOp f n xs) 1 = some (winVal f (windowAt xs n (xs.length - 1))) := by
  rw [ilocBack_of_le (by omega) (by simp [rollingOp_length]; omega), rollingOp_length]
  exact rollingOp_get?_filled (by omega) (by omega)

/-- Entry j ≥ 1 of the RSI gain source: the positive part of the close
delta. -/
theorem gain_entry {qs : List ℚ} {j : ℕ} {a b : ℚ} (h1 : 1 ≤ j)
    (ha : qs.get? (j - 1) = some a) (hb : qs.get? j = some b) :
    ((diffL (qs.map PF.num)).map
        (fun x => if PF.gtb x (PF.num 0) then x else PF.num 0)).get? j
      = some (PF.num (if a < b then b - a else 0)) := by
  have hc1 : (qs.map PF.num).get? j = some (PF.num b) := by
    rw [List.get?_map, hb]; rfl
  have hc0 : (PF.nan :: qs.map PF.num).get? j = some (PF.num a) := by
    match j, h1 with
    | j + 1, _ =>
      show (qs.map PF.num).get? j = some (PF.num a)
      have : qs.get? j = some a := by simpa using ha
      rw [List.get?_map, this]; rfl
  have hd : (diffL (qs.map PF.num)).get? j = some (PF.num (b - a)) := by
    rw [diffL_get?, hc1, hc0]
    simp
  have := get?_map_some (f := fun x => if PF.gtb x (PF.num 0) then x else PF.num 0) hd
  rw [this]
  by_cases hab : a < b
  · simp [PF.gtb, sub_pos.mpr hab, hab, ne_of_gt]
  · have : ¬ (0 : ℚ) < b - a := by simpa [sub_pos] using hab
    simp [PF.gtb, this, hab]

/-- Entry j ≥ 1 of the RSI loss source: the magnitude of the negative part
of the close delta. -/
theorem loss_entry {qs : List ℚ} {j : ℕ} {a b : ℚ} (h1 : 1 ≤ j)
    (ha : qs.get? (j - 1) = some a) (hb : qs.get? j = some b) :
    (((diffL (qs.map PF.num)).map
        (fun x => if PF.ltb x (PF.num 0) then x else PF.num 0)).map PF.neg).get? j
      = some (PF.num (if b < a then a - b else 0)) := by
  have hc1 : (qs.map PF.num).get? j = some (PF.num b) := by
    rw [List.get?_map, hb]; rfl
  have hc0 : (PF.nan :: qs.map PF.num).get? j = some (PF.num a) := by
    match j, h1 with
    | j + 1, _ =>
      show (qs.map PF.num).get? j = some (PF.num a)
      have : qs.get? j = some a := by simpa using ha
      rw [List.get?_map, this]; rfl
  have hd : (diffL (qs.map PF.num)).get? j = some (PF.num (b - a)) := by
    rw [diffL_get?, hc1, hc0]
    simp
  have h2 := get?_map_some (f := fun x => if PF.ltb x (PF.num 0) then x else PF.num 0) hd
  have h3 := get?_map_some (f := PF.neg) h2
  rw [h3]
  by_cases hba : b < a
  · have : b - a < 0 := sub_neg.mpr hba
    simp [this, hba, PF.neg, neg_sub]
  · have : ¬ (b - a) < 0 := by simpa [sub_neg] using hba
    simp [this, hba, PF.neg]

set_option maxHeartbeats 1000000 in
/-- The rolling gain and loss at the final position are means over the
14-delta window, whose entries are the clipped deltas of the last 15
closes. -/
theorem rsi_gain_loss_last {qs : List ℚ} {L : ℕ} (hL : qs.length = L)
    (h15 : 15 ≤ L) :
    ∃ gqs lqs : List ℚ, gqs.length = 14 ∧ lqs.length = 14 ∧
      ilocBack (rollingMean 14 ((diffL (qs.map PF.num)).map
        (fun x => if PF.gtb x (PF.num 0) then x else PF.num 0))) 1
        = some (PF.num (meanQ gqs)) ∧
      ilocBack (rollingMean 14 (((diffL (qs.map PF.num)).map
        (fun x => if PF.ltb x (PF.num 0) then x else PF.num 0)).map PF.neg)) 1
        = some (PF.num (meanQ lqs)) ∧
      (∀ t, t < 14 → ∀ a b : ℚ, qs.get? (L - 15 + t) = some a →
        qs.get? (L - 14 + t) = some b →
        gqs.get? t = some (if a < b then b - a else 0) ∧
        lqs.get? t = some (if b < a then a - b else 0)) := by
  have hGlen : ((diffL (qs.map PF.num)).map
      (fun x => if PF.gtb x (PF.num 0) then x else PF.num 0)).length = L := by
    simp [hL]
  have hLolen : (((diffL (qs.map PF.num)).map
      (fun x => if PF.ltb x (PF.num 0) then x else PF.num 0)).map PF.neg).length = L := by
    simp [hL]
  -- window entries of the gain source
  have hGwin : ∀ t, t < 14 →
      (windowAt ((diffL (qs.map PF.num)).map
        (fun x => if PF.gtb x (PF.num 0) then x else PF.num 0)) 14 (L - 1)).get? t
      = ((diffL (qs.map PF.num)).map
        (fun x => if PF.gtb x (PF.num 0) then x else PF.num 0)).get? (L - 14 + t) := by
    intro t ht
    rw [windowAt_get? (by omega : L - 1 < ((diffL (qs.map PF.num)).map
        (fun x => if PF.gtb x (PF.num 0) then x else PF.num 0)).length)
      (by omega) ht]
    congr 1 <;> omega
  have hLowin : ∀ t, t < 14 →
      (windowAt (((diffL (qs.map PF.num)).map
        (fun x => if PF.ltb x (PF.num 0) then x else PF.num 0)).map PF.neg) 14 (L - 1)).get? t
      = (((diffL (qs.map PF.num)).map
        (fun x => if PF.ltb x (PF.num 0) then x else PF.num 0)).map PF.neg).get? (L - 14 + t) := by
    intro t ht
    rw [windowAt_get? (by omega : L - 1 < (((diffL (qs.map PF.num)).map
        (fun x => if PF.ltb x (PF.num 0) then x else PF.num 0)).map PF.neg).length)
      (by omega) ht]
    congr 1 <;> omega
  -- values at the window entries
  have hval : ∀ t, t < 14 → ∃ a b : ℚ, qs.get? (L - 15 + t) = some a ∧
      qs.get? (L - 14 + t) = some b := by
    intro t ht
    obtain ⟨a, ha⟩ := get?_isSome_of_lt (l := qs) (i := L - 15 + t) (by omega)
    obtain ⟨b, hb⟩ := get?_isSome_of_lt (l := qs) (i := L - 14 + t) (by omega)
    exact ⟨a, b, ha, hb⟩
  have hGwlen : (windowAt ((diffL (qs.map PF.num)).map
      (fun x => if PF.gtb x (PF.num 0) then x else PF.num 0)) 14 (L - 1)).length = 14 :=
    windowAt_length (by omega) (by omega)
  have hLowlen : (windowAt (((diffL (qs.map PF.num)).map
      (fun x => if PF.ltb x (PF.num 0) then x else PF.num 0)).map PF.neg) 14 (L - 1)).length = 14 :=
    windowAt_length (by omega) (by omega)
  have hgnum : ∀ x ∈ windowAt ((diffL (qs.map PF.num)).map
      (fun x => if PF.gtb x (PF.num 0) then x else PF.num 0)) 14 (L - 1),
      ∃ q, x = PF.num q := by
    intro x hx
    obtain ⟨t, htx⟩ := List.get?_of_mem hx
    obtain ⟨hlt, _⟩ := List.get?_eq_some.mp htx
    rw [hGwlen] at hlt
    obtain ⟨a, b, ha, hb⟩ := hval t hlt
    rw [hGwin t hlt, gain_entry (by omega) (by
      have he : L - 14 + t - 1 = L - 15 + t := by omega
      rw [he]; exact ha) hb] at htx
    exact ⟨_, by injection htx with h; exact h.symm⟩
  have hlonum : ∀ x ∈ windowAt (((diffL (qs.map PF.num)).map
      (fun x => if PF.ltb x (PF.num 0) then x else PF.num 0)).map PF.neg) 14 (L - 1),
      ∃ q, x = PF.num q := by
    intro x hx
    obtain ⟨t, htx⟩ := List.get?_of_mem hx
    obtain ⟨hlt, _⟩ := List.get?_eq_some.mp htx
    rw [hLowlen] at hlt
    obtain ⟨a, b, ha, hb⟩ := hval t hlt
    rw [hLowin t hlt, loss_entry (by omega) (by
      have he : L - 14 + t - 1 = L - 15 + t := by omega
      rw [he]; exact ha) hb] at htx
    exact ⟨_, by injection htx with h; exact h.symm⟩
  obtain ⟨gqs, hgqs⟩ := allNum?_of_forall hgnum
  obtain ⟨lqs, hlqs⟩ := allNum?_of_forall hlonum
  refine ⟨gqs, lqs, ?_, ?_, ?_, ?_, ?_⟩
  · rw [allNum?_length hgqs, hGwlen]
  · rw [allNum?_length hlqs, hLowlen]
  · rw [rollingMean, rollingOp_iloc1 (by omega) (by omega)]
    rw [show ((diffL (qs.map PF.num)).map
        (fun x => if PF.gtb x (PF.num 0) then x else PF.num 0)).length - 1 = L - 1
      from by rw [hGlen]]
    rw [winVal_eq_num hgqs]
  · rw [rollingMean, rollingOp_iloc1 (by omega) (by omega)]
    rw [show (((diffL (qs.map PF.num)).map
        (fun x => if PF.ltb x (PF.num 0) then x else PF.num 0)).map PF.neg).length - 1 = L - 1
      from by rw [hLolen]]
    rw [winVal_eq_num hlqs]
  · intro t ht a b ha hb
    constructor
    · have hw := allNum?_get? hgqs t
      rw [hGwin t ht, gain_entry (by omega) (by
        have he : L - 14 + t - 1 = L - 15 + t := by omega
        rw [he]; exact ha) hb] at hw
      cases hq : gqs.get? t with
      | none => rw [hq] at hw; simp at hw
      | some x =>
        rw [hq] at hw
        simp only [Option.map_some', Option.some.injEq] at hw
        injection hw with hx
        rw [hx]
    · have hw := allNum?_get? hlqs t
      rw [hLowin t ht, loss_entry (by omega) (by
        have he : L - 14 + t - 1 = L - 15 + t := by omega
        rw [he]; exact ha) hb] at hw
      cases hq : lqs.get? t with
      | none => rw [hq] at hw; simp at hw
      | some x =>
        rw [hq] at hw
        simp only [Option.map_some', Option.some.injEq] at hw
        injection hw with hx
        rw [hx]

/-- Mean of an all-zero list. -/
theorem meanQ_zero {l : List ℚ} (h : ∀ x ∈ l, x = 0) : meanQ l = 0 := by
  rw [meanQ, List.sum_eq_zero h, zero_div]

/-- Mean of a non-empty list of non-negatives with a positive member. -/
theorem meanQ_pos {l : List ℚ} (hne : l.length ≠ 0) (h0 : ∀ x ∈ l, 0 ≤ x)
    {a : ℚ} (ha : a ∈ l) (hpos : 0 < a) : 0 < meanQ l := by
  rw [meanQ]
  refine div_pos (lt_of_lt_of_le hpos (List.single_le_sum h0 a ha)) ?_
  exact_mod_cast Nat.pos_of_ne_zero hne

/-- Mean of a list of non-negatives. -/
theorem meanQ_nonneg {l : List ℚ} (h0 : ∀ x ∈ l, 0 ≤ x) : 0 ≤ meanQ l := by
  rw [meanQ]
  exact div_nonneg (List.sum_nonneg h0) (by positivity)

/-- The final RSI value in terms of the final rolling gain and loss. -/
theorem calc_rsi_last_eq {close : List PF} {g l : PF} (h1 : 1 ≤ close.length)
    (hg : ilocBack (rollingMean 14 ((diffL close).map
      (fun x => if PF.gtb x (PF.num 0) then x else PF.num 0))) 1 = some g)
    (hl : ilocBack (rollingMean 14 (((diffL close).map
      (fun x => if PF.ltb x (PF.num 0) then x else PF.num 0)).map PF.neg)) 1 = some l) :
    ilocBack (calc_rsi close).RSI 1 =
      some (PF.sub (PF.num 100)
        (PF.div (PF.num 100) (PF.add (PF.num 1) (PF.div g l)))) := by
  rw [calc_rsi_RSI_eq]
  rw [ilocBack_of_le (by omega) (by simp; omega)] at hg hl ⊢
  simp only [rollingMean_length, List.length_map, List.length_zipWith, diffL_length,
    min_self] at hg hl ⊢
  have hrs := get?_zipWith_some (f := PF.div) hg hl
  have := get?_map_some
    (f := fun r => PF.sub (PF.num 100) (PF.div (PF.num 100) (PF.add (PF.num 1) r))) hrs
  exact this

/-- RSI saturates at 100 when the rolling loss is zero and the gain
positive. -/
theorem rsi_formula_sat100 {g : ℚ} (hg : 0 < g) :
    PF.sub (PF.num 100)
      (PF.div (PF.num 100) (PF.add (PF.num 1) (PF.div (PF.num g) (PF.num 0))))
      = PF.num 100 := by
  rw [show PF.div (PF.num g) (PF.num 0) = PF.inf from by
    simp [PF.div, hg.ne', not_lt.mpr hg.le]]
  rw [show PF.add (PF.num 1) PF.inf = PF.inf from rfl]
  rw [show PF.div (PF.num 100) PF.inf = PF.num 0 from rfl]
  rw [PF.num_sub]
  norm_num

/-- RSI is exactly 0 when the rolling gain is zero and the loss positive. -/
theorem rsi_formula_zero {l : ℚ} (hl : 0 < l) :
    PF.sub (PF.num 100)
      (PF.div (PF.num 100) (PF.add (PF.num 1) (PF.div (PF.num 0) (PF.num l))))
      = PF.num 0 := by
  rw [show PF.div (PF.num 0) (PF.num l) = PF.num 0 from by
    simp [PF.div, hl.ne']]
  rw [PF.num_add, add_zero]
  rw [show PF.div (PF.num 100) (PF.num 1) = PF.num 100 from by norm_num [PF.div]]
  rw [PF.num_sub, sub_self]

/-- RSI is a plain number whenever the rolling loss is positive. -/
theorem rsi_formula_num {g l : ℚ} (hg : 0 ≤ g) (hl : 0 < l) :
    ∃ q, PF.sub (PF.num 100)
      (PF.div (PF.num 100) (PF.add (PF.num 1) (PF.div (PF.num g) (PF.num l))))
      = PF.num q := by
  rw [show PF.div (PF.num g) (PF.num l) = PF.num (g / l) from by
    simp [PF.div, hl.ne']]
  rw [PF.num_add]
  have h0 : 0 ≤ g / l := div_nonneg hg hl.le
  have hne : (1 : ℚ) + g / l ≠ 0 := by linarith
  rw [show PF.div (PF.num 100) (PF.num (1 + g / l))
      = PF.num (100 / (1 + g / l)) from by simp [PF.div, hne]]
  rw [PF.num_sub]
  exact ⟨_, rfl⟩

/-- RSI is NaN when both the rolling gain and loss are zero (flat
window). -/
theorem rsi_formula_nan :
    PF.sub (PF.num 100)
      (PF.div (PF.num 100) (PF.add (PF.num 1) (PF.div (PF.num 0) (PF.num 0))))
      = PF.nan := by
  rw [show PF.div (PF.num 0) (PF.num 0) = PF.nan from by simp [PF.div]]
  rfl

/-- getD agrees with a defined get?. -/
theorem getD_of_get? {l : List ℚ} {i : ℕ} {a : ℚ} (d : ℚ) (h : l.get? i = some a) :
    l.getD i d = a := by
  induction l generalizing i with
  | nil => simp at h
  | cons x t ih =>
    match i with
    | 0 =>
      simp only [List.get?] at h
      injection h with h
    | i + 1 =>
      simp only [List.get?] at h
      simpa [List.getD] using ih h

set_option maxHeartbeats 1000000 in
/-- C9: over the final full RSI window (14 deltas, default period), a
strictly increasing close series makes the final RSI exactly 100 (loss
saturates at zero, RS is infinite), and a strictly decreasing close series
makes it exactly 0. -/
theorem c9_rsi_saturation (qs : List ℚ) (L : ℕ) (hL : qs.length = L)
    (h15 : 15 ≤ L) :
    ((∀ i, i < L - 1 → L ≤ i + 15 → qs.getD i 0 < qs.getD (i + 1) 0) →
      ilocBack (calc_rsi (qs.map PF.num)).RSI 1 = some (PF.num 100)) ∧
    ((∀ i, i < L - 1 → L ≤ i + 15 → qs.getD (i + 1) 0 < qs.getD i 0) →
      ilocBack (calc_rsi (qs.map PF.num)).RSI 1 = some (PF.num 0)) := by
  obtain ⟨gqs, lqs, hglen, hllen, hg, hl, hcl⟩ := rsi_gain_loss_last hL h15
  have hlen1 : 1 ≤ (qs.map PF.num).length := by simp; omega
  have hmem : ∀ t, t < 14 → ∃ a b : ℚ, qs.get? (L - 15 + t) = some a ∧
      qs.get? (L - 14 + t) = some b ∧
      gqs.get? t = some (if a < b then b - a else 0) ∧
      lqs.get? t = some (if b < a then a - b else 0) := by
    intro t ht
    obtain ⟨a, ha⟩ := get?_isSome_of_lt (l := qs) (i := L - 15 + t) (by omega)
    obtain ⟨b, hb⟩ := get?_isSome_of_lt (l := qs) (i := L - 14 + t) (by omega)
    obtain ⟨h1, h2⟩ := hcl t ht a b ha hb
    exact ⟨a, b, ha, hb, h1, h2⟩
  constructor
  · intro hinc
    have hgval : ∀ x ∈ gqs, 0 < x := by
      intro x hx
      obtain ⟨t, htx⟩ := List.get?_of_mem hx
      obtain ⟨hlt, _⟩ := List.get?_eq_some.mp htx
      rw [hglen] at hlt
      obtain ⟨a, b, ha, hb, h1, _⟩ := hmem t hlt
      have hab : a < b := by
        have := hinc (L - 15 + t) (by omega) (by omega)
        rw [getD_of_get? 0 ha] at this
        rw [show L - 15 + t + 1 = L - 14 + t by omega, getD_of_get? 0 hb] at this
        exact this
      rw [htx] at h1
      injection h1 with h1
      rw [h1, if_pos hab]
      exact sub_pos.mpr hab
    have hlval : ∀ x ∈ lqs, x = 0 := by
      intro x hx
      obtain ⟨t, htx⟩ := List.get?_of_mem hx
      obtain ⟨hlt, _⟩ := List.get?_eq_some.mp htx
      rw [hllen] at hlt
      obtain ⟨a, b, ha, hb, _, h2⟩ := hmem t hlt
      have hab : a < b := by
        have := hinc (L - 15 + t) (by omega) (by omega)
        rw [getD_of_get? 0 ha] at this
        rw [show L - 15 + t + 1 = L - 14 + t by omega, getD_of_get? 0 hb] at this
        exact this
      rw [htx] at h2
      injection h2 with h2
      rw [h2, if_neg (by linarith)]
    obtain ⟨x0, hx0⟩ := get?_isSome_of_lt (l := gqs) (i := 0) (by omega)
    have hmean : meanQ lqs = 0 := meanQ_zero hlval
    have hpos : 0 < meanQ gqs := meanQ_pos (by omega)
      (fun x hx => (hgval x hx).le) (List.get?_mem hx0) (hgval _ (List.get?_mem hx0))
    rw [calc_rsi_last_eq hlen1 hg hl, hmean]
    rw [rsi_formula_sat100 hpos]
  · intro hdec
    have hgval : ∀ x ∈ gqs, x = 0 := by
      intro x hx
      obtain ⟨t, htx⟩ := List.get?_of_mem hx
      obtain ⟨hlt, _⟩ := List.get?_eq_some.mp htx
      rw [hglen] at hlt
      obtain ⟨a, b, ha, hb, h1, _⟩ := hmem t hlt
      have hab : b < a := by
        have := hdec (L - 15 + t) (by omega) (by omega)
        rw [getD_of_get? 0 ha] at this
        rw [show L - 15 + t + 1 = L - 14 + t by omega, getD_of_get? 0 hb] at this
        exact this
      rw [htx] at h1
      injection h1 with h1
      rw [h1, if_neg (by linarith)]
    have hlval : ∀ x ∈ lqs, 0 < x := by
      intro x hx
      obtain ⟨t, htx⟩ := List.get?_of_mem hx
      obtain ⟨hlt, _⟩ := List.get?_eq_some.mp htx
      rw [hllen] at hlt
      obtain ⟨a, b, ha, hb, _, h2⟩ := hmem t hlt
      have hab : b < a := by
        have := hdec (L - 15 + t) (by omega) (by omega)
        rw [getD_of_get? 0 ha] at this
        rw [show L - 15 + t + 1 = L - 14 + t by omega, getD_of_get? 0 hb] at this
        exact this
      rw [htx] at h2
      injection h2 with h2
      rw [h2, if_pos hab]
      exact sub_pos.mpr hab
    obtain ⟨x0, hx0⟩ := get?_isSome_of_lt (l := lqs) (i := 0) (by omega)
    have hmean : meanQ gqs = 0 := meanQ_zero hgval
    have hpos : 0 < meanQ lqs := meanQ_pos (by omega)
      (fun x hx => (hlval x hx).le) (List.get?_mem hx0) (hlval _ (List.get?_mem hx0))
    rw [calc_rsi_last_eq hlen1 hg hl, hmean]
    rw [rsi_formula_zero hpos]

/-- C9 witness: on the concrete strictly increasing closes 1..15 the final
RSI is 100, and on the strictly decreasing closes 15..1 it is 0. -/
theorem c9_rsi_saturation_witness :
    ilocBack (calc_rsi ([1, 2, 3, 4, 5, 6, 7, 8, 9, 10, 11, 12, 13, 14,
        (15 : ℚ)].map PF.num)).RSI 1 = some (PF.num 100) ∧
    ilocBack (calc_rsi ([15, 14, 13, 12, 11, 10, 9, 8, 7, 6, 5, 4, 3, 2,
        (1 : ℚ)].map PF.num)).RSI 1 = some (PF.num 0) :=
  ⟨(c9_rsi_saturation [1, 2, 3, 4, 5, 6, 7, 8, 9, 10, 11, 12, 13, 14, 15] 15
      rfl (by omega)).1 (by decide),
   (c9_rsi_saturation [15, 14, 13, 12, 11, 10, 9, 8, 7, 6, 5, 4, 3, 2, 1] 15
      rfl (by omega)).2 (by decide)⟩

/-- A rolling statistic at the last position over finite inputs is a
finite number. -/
theorem rollingOp_iloc1_num {f : List ℚ → ℚ} {n : ℕ} {l : List PF}
    (hn : 1 ≤ n) (hlen : n ≤ l.length) (hall : ∀ x ∈ l, ∃ q, x = PF.num q) :
    ∃ q, ilocBack (rollingOp f n l) 1 = some (PF.num q) := by
  rw [rollingOp_iloc1 hn hlen]
  obtain ⟨qs, hqs⟩ := allNum?_of_forall (fun x hx => hall x (windowAt_mem hx))
  exact ⟨_, by rw [winVal_eq_num hqs]⟩

/-- zipWith of an operation that preserves finiteness. -/
theorem zipWith_allNum {op : PF → PF → PF}
    (hop : ∀ p q : ℚ, ∃ r, op (PF.num p) (PF.num q) = PF.num r)
    {a b : List PF} (ha : ∀ x ∈ a, ∃ q, x = PF.num q)
    (hb : ∀ x ∈ b, ∃ q, x = PF.num q) :
    ∀ x ∈ List.zipWith op a b, ∃ q, x = PF.num q := by
  intro x hx
  obtain ⟨i, hi⟩ := List.get?_of_mem hx
  rw [List.get?_zipWith'] at hi
  cases hga : a.get? i with
  | none => rw [hga] at hi; simp at hi
  | some xa =>
    cases hgb : b.get? i with
    | none => rw [hga, hgb] at hi; simp at hi
    | some xb =>
      rw [hga, hgb] at hi
      simp only [Option.map_some', Option.some_bind, Option.some.injEq] at hi
      obtain ⟨p, rfl⟩ := ha xa (List.get?_mem hga)
      obtain ⟨q, rfl⟩ := hb xb (List.get?_mem hgb)
      obtain ⟨r, hr⟩ := hop p q
      exact ⟨r, by rw [← hi, hr]⟩

/-- The last element of an all-finite non-empty list is a finite number. -/
theorem iloc1_num_of_allNum {l : List PF} (h1 : 1 ≤ l.length)
    (hall : ∀ x ∈ l, ∃ q, x = PF.num q) :
    ∃ q, ilocBack l 1 = some (PF.num q) := by
  obtain ⟨x, hx⟩ := ilocBack_isSome (l := l) (k := 1) (by omega) (by omega)
  have hx' : l.get? (l.length - 1) = some x := by
    rw [← ilocBack_of_le (by omega) (by omega)]
    exact hx
  obtain ⟨q, rfl⟩ := hall x (List.get?_mem hx')
  exact ⟨q, hx⟩

/-- A shifted series entry is NaN (at the first slot) or an element of the
base series. -/
theorem shift1_get?_cases {l : List PF} {i : ℕ} (hi : i < l.length) :
    (shift1 l).get? i = some PF.nan ∨
      ∃ x, (shift1 l).get? i = some x ∧ x ∈ l := by
  rw [shift1, List.get?_take hi]
  match i with
  | 0 => exact Or.inl rfl
  | i + 1 =>
    right
    obtain ⟨x, hx⟩ := get?_isSome_of_lt (l := l) (i := i) (by omega)
    exact ⟨x, by simpa using hx, List.get?_mem hx⟩

/-- maxSkipNan of a finite number with a NaN-or-finite value is finite. -/
theorem maxSkipNan_num {a b : PF} (ha : ∃ q, a = PF.num q)
    (hb : b = PF.nan ∨ ∃ q, b = PF.num q) : ∃ q, maxSkipNan a b = PF.num q := by
  obtain ⟨p, rfl⟩ := ha
  rcases hb with rfl | ⟨q, rfl⟩
  · exact ⟨p, by simp [maxSkipNan]⟩
  · by_cases h : PF.ltb (PF.num p) (PF.num q)
    · exact ⟨q, by simp [maxSkipNan, h]⟩
    · exact ⟨p, by simp [maxSkipNan, h]⟩

/-- The extraction of allNum? reconstructs the list. -/
theorem allNum?_map : ∀ {w : List PF} {qs : List ℚ}, allNum? w = some qs →
    w = qs.map PF.num := by
  intro w
  induction w with
  | nil => intro qs h; simp only [allNum?, Option.some.injEq] at h; simp [← h]
  | cons x t ih =>
    intro qs h
    match x with
    | PF.nan => simp [allNum?] at h
    | PF.inf => simp [allNum?] at h
    | PF.ninf => simp [allNum?] at h
    | PF.num q =>
      simp only [allNum?, Option.map_eq_some'] at h
      obtain ⟨qs', hqs', rfl⟩ := h
      simp [ih hqs']

/-- Each entry of a mean-zero nonnegative list is zero. -/
theorem meanQ_eq_zero_all {l : List ℚ} (hne : l.length ≠ 0)
    (h0 : ∀ x ∈ l, 0 ≤ x) (hm : meanQ l = 0) : ∀ a ∈ l, a = 0 := by
  intro a ha
  have hsum : l.sum = 0 := by
    have h := hm
    rw [meanQ, div_eq_zero_iff] at h
    rcases h with h | h
    · exact h
    · exact absurd (by exact_mod_cast h) hne
  have h1 : a ≤ l.sum := List.single_le_sum h0 a ha
  have h2 : 0 ≤ a := h0 a ha
  rw [hsum] at h1
  linarith

set_option maxHeartbeats 1000000 in
/-- The final RSI is a finite number whenever some close delta in the
final 14-delta window is nonzero. -/
theorem calc_rsi_last_defined {qs : List ℚ} {L : ℕ} (hL : qs.length = L)
    (h15 : 15 ≤ L)
    (hnf : ∃ j, j < L - 1 ∧ L ≤ j + 15 ∧ qs.get? j ≠ qs.get? (j + 1)) :
    ∃ q, ilocBack (calc_rsi (qs.map PF.num)).RSI 1 = some (PF.num q) := by
  obtain ⟨gqs, lqs, hglen, hllen, hg, hl, hcl⟩ := rsi_gain_loss_last hL h15
  have hlen1 : 1 ≤ (qs.map PF.num).length := by simp; omega
  have hmem : ∀ t, t < 14 → ∃ a b : ℚ, qs.get? (L - 15 + t) = some a ∧
      qs.get? (L - 14 + t) = some b ∧
      gqs.get? t = some (if a < b then b - a else 0) ∧
      lqs.get? t = some (if b < a then a - b else 0) := by
    intro t ht
    obtain ⟨a, ha⟩ := get?_isSome_of_lt (l := qs) (i := L - 15 + t) (by omega)
    obtain ⟨b, hb⟩ := get?_isSome_of_lt (l := qs) (i := L - 14 + t) (by omega)
    obtain ⟨h1, h2⟩ := hcl t ht a b ha hb
    exact ⟨a, b, ha, hb, h1, h2⟩
  have hgnn : ∀ x ∈ gqs, 0 ≤ x := by
    intro x hx
    obtain ⟨t, htx⟩ := List.get?_of_mem hx
    obtain ⟨hlt, _⟩ := List.get?_eq_some.mp htx
    rw [hglen] at hlt
    obtain ⟨a, b, _, _, h1, _⟩ := hmem t hlt
    rw [htx] at h1
    injection h1 with h1
    rw [h1]
    split_ifs with hc
    · linarith
    · exact le_refl 0
  have hlnn : ∀ x ∈ lqs, 0 ≤ x := by
    intro x hx
    obtain ⟨t, htx⟩ := List.get?_of_mem hx
    obtain ⟨hlt, _⟩ := List.get?_eq_some.mp htx
    rw [hllen] at hlt
    obtain ⟨a, b, _, _, _, h2⟩ := hmem t hlt
    rw [htx] at h2
    injection h2 with h2
    rw [h2]
    split_ifs with hc
    · linarith
    · exact le_refl 0
  obtain ⟨j, hj1, hj2, hjne⟩ := hnf
  have ht0 : j - (L - 15) < 14 := by omega
  have hidx1 : L - 15 + (j - (L - 15)) = j := by omega
  have hidx2 : L - 14 + (j - (L - 15)) = j + 1 := by omega
  obtain ⟨a, b, ha, hb, hga, hla⟩ := hmem (j - (L - 15)) ht0
  rw [hidx1] at ha
  rw [hidx2] at hb
  have hab : a ≠ b := by
    intro hcon
    exact hjne (by rw [ha, hb, hcon])
  rw [calc_rsi_last_eq hlen1 hg hl]
  rcases (meanQ_nonneg hlnn).lt_or_eq with hlpos | hlzero
  · obtain ⟨q, hq⟩ := rsi_formula_num (meanQ_nonneg hgnn) hlpos
    exact ⟨q, by rw [hq]⟩
  · have hall0 : ∀ x ∈ lqs, x = 0 :=
      meanQ_eq_zero_all (by omega) hlnn hlzero.symm
    have hnb : ¬ b < a := by
      intro hba
      have h0 := hall0 _ (List.get?_mem hla)
      rw [if_pos hba] at h0
      linarith
    have haltb : a < b := lt_of_le_of_ne (not_lt.mp hnb) hab
    have hgpos : 0 < meanQ gqs :=
      meanQ_pos (by omega) hgnn (List.get?_mem hga)
        (by rw [if_pos haltb]; linarith)
    rw [← hlzero, rsi_formula_sat100 hgpos]
    exact ⟨100, rfl⟩

/-- On a constant close series of length ≥ 15, the final RSI is NaN: all
deltas are zero, so both the rolling gain and loss are zero and RS is
0/0. -/
theorem calc_rsi_const_last_nan (c : ℚ) (L : ℕ) (h15 : 15 ≤ L) :
    ilocBack (calc_rsi ((List.replicate L c).map PF.num)).RSI 1 = some PF.nan := by
  obtain ⟨gqs, lqs, hglen, hllen, hg, hl, hcl⟩ :=
    rsi_gain_loss_last (show (List.replicate L c).length = L by simp) h15
  have hrep : ∀ i, i < L → (List.replicate L c).get? i = some c := by
    intro i hi
    rw [List.get?_eq_getElem?, List.getElem?_replicate, if_pos hi]
  have hgz : ∀ x ∈ gqs, x = 0 := by
    intro x hx
    obtain ⟨t, htx⟩ := List.get?_of_mem hx
    obtain ⟨hlt, _⟩ := List.get?_eq_some.mp htx
    rw [hglen] at hlt
    have h1 := (hcl t hlt c c (hrep _ (by omega)) (hrep _ (by omega))).1
    rw [htx] at h1
    injection h1 with h1
    rw [h1, if_neg (lt_irrefl c)]
  have hlz : ∀ x ∈ lqs, x = 0 := by
    intro x hx
    obtain ⟨t, htx⟩ := List.get?_of_mem hx
    obtain ⟨hlt, _⟩ := List.get?_eq_some.mp htx
    rw [hllen] at hlt
    have h2 := (hcl t hlt c c (hrep _ (by omega)) (hrep _ (by omega))).2
    rw [htx] at h2
    injection h2 with h2
    rw [h2, if_neg (lt_irrefl c)]
  rw [calc_rsi_last_eq (by simp; omega) hg hl, meanQ_zero hgz, meanQ_zero hlz,
    rsi_formula_nan]

/-- C6 counterexample: a flat series of length 120 (all default windows
filled, so the claim applies) leaves RSI undefined at the final position:
the rolling gain and loss are both zero and RS is the 0/0 NaN. -/
theorem c6_counterexample :
    ilocBack (calc_rsi (List.replicate 120 (PF.num 1))).RSI 1 = some PF.nan ∧
      (List.replicate 120 (PF.num 1)).length = 120 := by
  constructor
  · have h := calc_rsi_const_last_nan 1 120 (by omega)
    rwa [List.map_replicate] at h
  · simp

/-- Under well-formed bars all three price columns are finite. -/
theorem wf_cols_num {p q r : List PF} {L : ℕ}
    (hLh : p.length = L) (hLl : q.length = L) (hLc : r.length = L)
    (hw : wfBars p q r = true) :
    (∀ x ∈ p, ∃ u, x = PF.num u) ∧ (∀ x ∈ q, ∃ u, x = PF.num u) ∧
    (∀ x ∈ r, ∃ u, x = PF.num u) := by
  have hs := wfBars_spec hLh hLl hLc hw
  refine ⟨?_, ?_, ?_⟩
  · intro x hx
    obtain ⟨j, hj⟩ := List.get?_of_mem hx
    obtain ⟨hlt, _⟩ := List.get?_eq_some.mp hj
    obtain ⟨hq', _, _, hhq, _, _, _, _⟩ := hs j (by omega)
    rw [hj] at hhq
    injection hhq with hhq
    exact ⟨hq', hhq⟩
  · intro x hx
    obtain ⟨j, hj⟩ := List.get?_of_mem hx
    obtain ⟨hlt, _⟩ := List.get?_eq_some.mp hj
    obtain ⟨_, lq', _, _, hlq, _, _, _⟩ := hs j (by omega)
    rw [hj] at hlq
    injection hlq with hlq
    exact ⟨lq', hlq⟩
  · intro x hx
    obtain ⟨j, hj⟩ := List.get?_of_mem hx
    obtain ⟨hlt, _⟩ := List.get?_eq_some.mp hj
    obtain ⟨_, _, cq', _, _, hcq, _, _⟩ := hs j (by omega)
    rw [hj] at hcq
    injection hcq with hcq
    exact ⟨cq', hcq⟩

/-- Entries of |column - shift1 base| are NaN or finite. -/
theorem abs_sub_shift_cases {a c : List PF}
    (ha : ∀ x ∈ a, ∃ q, x = PF.num q) (hc : ∀ x ∈ c, ∃ q, x = PF.num q) :
    ∀ x ∈ (List.zipWith PF.sub a (shift1 c)).map PF.abs,
      x = PF.nan ∨ ∃ q, x = PF.num q := by
  intro x hx
  obtain ⟨i, hi⟩ := List.get?_of_mem hx
  rw [List.get?_map] at hi
  obtain ⟨y, hy, rfl⟩ := Option.map_eq_some'.mp hi
  rw [List.get?_zipWith'] at hy
  cases hga : a.get? i with
  | none => rw [hga] at hy; simp at hy
  | some u =>
    cases hgs : (shift1 c).get? i with
    | none => rw [hga, hgs] at hy; simp at hy
    | some v =>
      rw [hga, hgs] at hy
      simp only [Option.map_some', Option.some_bind, Option.some.injEq] at hy
      obtain ⟨p, rfl⟩ := ha u (List.get?_mem hga)
      obtain ⟨hsl, _⟩ := List.get?_eq_some.mp hgs
      rw [shift1_length] at hsl
      rcases shift1_get?_cases hsl with hv | ⟨w, hw, hwm⟩
      · rw [hgs] at hv
        injection hv with hv
        subst hv
        left
        rw [← hy]
        rfl
      · rw [hgs] at hw
        injection hw with hw
        subst hw
        obtain ⟨q, rfl⟩ := hc v hwm
        right
        exact ⟨|p - q|, by rw [← hy, PF.num_sub]; rfl⟩

/-- zipWith maxSkipNan of finite values with NaN-or-finite values is
finite. -/
theorem zipWith_maxSkip_num {a b : List PF}
    (ha : ∀ x ∈ a, ∃ q, x = PF.num q)
    (hb : ∀ x ∈ b, x = PF.nan ∨ ∃ q, x = PF.num q) :
    ∀ x ∈ List.zipWith maxSkipNan a b, ∃ q, x = PF.num q := by
  intro x hx
  obtain ⟨i, hi⟩ := List.get?_of_mem hx
  rw [List.get?_zipWith'] at hi
  cases hga : a.get? i with
  | none => rw [hga] at hi; simp at hi
  | some u =>
    cases hgb : b.get? i with
    | none => rw [hga, hgb] at hi; simp at hi
    | some v =>
      rw [hga, hgb] at hi
      simp only [Option.map_some', Option.some_bind, Option.some.injEq] at hi
      obtain ⟨q, hq⟩ := maxSkipNan_num (ha u (List.get?_mem hga))
        (hb v (List.get?_mem hgb))
      exact ⟨q, by rw [← hi, hq]⟩

set_option maxHeartbeats 2000000 in
/-- C6 (amended): for every well-formed input whose columns have a common
length of at least 120 (the largest configured window), every indicator's
value at the final position is a defined finite number — MA for all five
periods, MACD DIF and DEA, KDJ K/D/J, the three Bollinger bands, ATR and
the volume MAs — except RSI, which additionally requires some nonzero
close delta in its final 14-delta window; on a perfectly flat window RSI
is NaN (0/0). -/
theorem c6_defined_at_full_window (sf : ℚ → ℚ) (high low close volume : List PF)
    (L : ℕ) (hLh : high.length = L) (hLl : low.length = L)
    (hLc : close.length = L) (hLv : volume.length = L) (h120 : 120 ≤ L)
    (hw : wfBars high low close = true) (hvol : volume.all PF.isNum = true) :
    (∀ pr ∈ calc_ma close, ∃ q, ilocBack pr.2 1 = some (PF.num q)) ∧
    (∃ q, ilocBack (calc_macd close).DIF 1 = some (PF.num q)) ∧
    (∃ q, ilocBack (calc_macd close).DEA 1 = some (PF.num q)) ∧
    (∃ q, ilocBack (calc_kdj high low close).K 1 = some (PF.num q)) ∧
    (∃ q, ilocBack (calc_kdj high low close).D 1 = some (PF.num q)) ∧
    (∃ q, ilocBack (calc_kdj high low close).J 1 = some (PF.num q)) ∧
    (∃ q, ilocBack (calc_boll sf close).UPPER 1 = some (PF.num q)) ∧
    (∃ q, ilocBack (calc_boll sf close).MID 1 = some (PF.num q)) ∧
    (∃ q, ilocBack (calc_boll sf close).LOWER 1 = some (PF.num q)) ∧
    (∃ q, ilocBack (calc_atr high low close) 1 = some (PF.num q)) ∧
    (∀ pr ∈ calc_vol_ma volume, ∃ q, ilocBack pr.2 1 = some (PF.num q)) ∧
    ((∃ j, j < L - 1 ∧ L ≤ j + 15 ∧ close.get? j ≠ close.get? (j + 1)) →
      ∃ q, ilocBack (calc_rsi close).RSI 1 = some (PF.num q)) := by
  obtain ⟨hhnum, hlnum, hcnum⟩ := wf_cols_num hLh hLl hLc hw
  have hvnum : ∀ x ∈ volume, ∃ q, x = PF.num q := by
    intro x hx
    have := List.all_eq_true.mp hvol x hx
    match x, this with
    | PF.num q, _ => exact ⟨q, rfl⟩
  have hsub : ∀ p q : ℚ, ∃ r, PF.sub (PF.num p) (PF.num q) = PF.num r :=
    fun p q => ⟨p - q, PF.num_sub p q⟩
  refine ⟨?_, ?_, ?_, ?_, ?_, ?_, ?_, ?_, ?_, ?_, ?_, ?_⟩
  · intro pr hpr
    obtain ⟨p, hp, rfl⟩ := List.mem_map.mp hpr
    have hp' : p = 5 ∨ p = 10 ∨ p = 20 ∨ p = 60 ∨ p = 120 := by simpa using hp
    exact rollingOp_iloc1_num (by rcases hp' with rfl | rfl | rfl | rfl | rfl <;> omega)
      (by rcases hp' with rfl | rfl | rfl | rfl | rfl <;> omega) hcnum
  · rw [calc_macd_DIF_eq]
    exact iloc1_num_of_allNum (by simp [hLc]; omega)
      (zipWith_allNum hsub (ewmAlpha_allNum hcnum) (ewmAlpha_allNum hcnum))
  · rw [calc_macd_DEA_eq]
    exact iloc1_num_of_allNum (by simp [hLc]; omega)
      (ewmAlpha_allNum (zipWith_allNum hsub (ewmAlpha_allNum hcnum)
        (ewmAlpha_allNum hcnum)))
  · exact iloc1_num_of_allNum
      (by rw [calc_kdj_K_eq, ewmCom_length, kdj_rsv_length hLh hLl hLc]; omega)
      (calc_kdj_allNum hLh hLl hLc hw).1
  · exact iloc1_num_of_allNum
      (by rw [calc_kdj_D_eq, ewmCom_length, ewmCom_length,
        kdj_rsv_length hLh hLl hLc]; omega)
      (calc_kdj_allNum hLh hLl hLc hw).2.1
  · exact iloc1_num_of_allNum
      (by rw [calc_kdj_J_eq]
          simp only [List.length_zipWith, List.length_map, calc_kdj_K_eq,
            calc_kdj_D_eq, ewmCom_length, kdj_rsv_length hLh hLl hLc]
          omega)
      (calc_kdj_allNum hLh hLl hLc hw).2.2
  · obtain ⟨mq, hmq⟩ := rollingOp_iloc1_num (f := meanQ) (n := 20)
      (by omega) (by omega) hcnum
    obtain ⟨sq, hsq⟩ := rollingOp_iloc1_num (n := 20) (by omega) (by omega) hcnum
      (f := fun qs => sf (sampleVar qs))
    rw [ilocBack_of_le (by omega) (by simp [hLc]; omega)] at hmq hsq
    simp only [rollingOp_length] at hmq hsq
    have hstd2 := get?_map_some (f := fun x => PF.mul (PF.num 2) x) hsq
    simp only [PF.num_mul] at hstd2
    have hup := get?_zipWith_some (f := PF.add) hmq hstd2
    rw [PF.num_add] at hup
    refine ⟨mq + 2 * sq, ?_⟩
    rw [calc_boll_UPPER_eq, ilocBack_of_le (by omega) (by simp [hLc]; omega)]
    simp only [rollingMean_length, rollingStd_length, List.length_zipWith,
      List.length_map, min_self] at hup ⊢
    exact hup
  · rw [calc_boll_MID_eq]
    exact rollingOp_iloc1_num (by omega) (by omega) hcnum
  · obtain ⟨mq, hmq⟩ := rollingOp_iloc1_num (f := meanQ) (n := 20)
      (by omega) (by omega) hcnum
    obtain ⟨sq, hsq⟩ := rollingOp_iloc1_num (n := 20) (by omega) (by omega) hcnum
      (f := fun qs => sf (sampleVar qs))
    rw [ilocBack_of_le (by omega) (by simp [hLc]; omega)] at hmq hsq
    simp only [rollingOp_length] at hmq hsq
    have hstd2 := get?_map_some (f := fun x => PF.mul (PF.num 2) x) hsq
    simp only [PF.num_mul] at hstd2
    have hlo := get?_zipWith_some (f := PF.sub) hmq hstd2
    rw [PF.num_sub] at hlo
    refine ⟨mq - 2 * sq, ?_⟩
    rw [calc_boll_LOWER_eq, ilocBack_of_le (by omega) (by simp [hLc]; omega)]
    simp only [rollingMean_length, rollingStd_length, List.length_zipWith,
      List.length_map, min_self] at hlo ⊢
    exact hlo
  · rw [calc_atr_eq]
    have htr1 : ∀ x ∈ List.zipWith PF.sub high low, ∃ q, x = PF.num q :=
      zipWith_allNum hsub hhnum hlnum
    have htr12 := zipWith_maxSkip_num htr1 (abs_sub_shift_cases hhnum hcnum)
    have htr := zipWith_maxSkip_num htr12 (abs_sub_shift_cases hlnum hcnum)
    refine rollingOp_iloc1_num (by omega) ?_ htr
    simp only [List.length_zipWith, List.length_map, shift1_length, hLh, hLl, hLc]
    omega
  · intro pr hpr
    obtain ⟨p, hp, rfl⟩ := List.mem_map.mp hpr
    have hp' : p = 5 ∨ p = 10 ∨ p = 20 := by simpa using hp
    exact rollingOp_iloc1_num (by rcases hp' with rfl | rfl | rfl <;> omega)
      (by rcases hp' with rfl | rfl | rfl <;> omega) hvnum
  · intro hnf
    obtain ⟨qs0, hqs0⟩ := allNum?_of_forall hcnum
    have hmapc : close = qs0.map PF.num := allNum?_map hqs0
    have hq0len : qs0.length = L := by rw [allNum?_length hqs0, hLc]
    obtain ⟨j, hj1, hj2, hjne⟩ := hnf
    have hnf' : ∃ j, j < L - 1 ∧ L ≤ j + 15 ∧ qs0.get? j ≠ qs0.get? (j + 1) := by
      refine ⟨j, hj1, hj2, fun hcon => hjne ?_⟩
      rw [allNum?_get? hqs0 j, allNum?_get? hqs0 (j + 1), hcon]
    rw [hmapc]
    exact calc_rsi_last_defined hq0len (by omega) hnf'

theorem c6_defined_at_full_window_witness :
    wfBars (List.replicate 119 (PF.num 1) ++ [PF.num 2])
        (List.replicate 119 (PF.num 1) ++ [PF.num 2])
        (List.replicate 119 (PF.num 1) ++ [PF.num 2]) = true ∧
    (List.replicate 120 (PF.num 3)).all PF.isNum = true ∧
    (∃ q, ilocBack (calc_macd
        (List.replicate 119 (PF.num 1) ++ [PF.num 2])).DIF 1 = some (PF.num q)) ∧
    (∃ q, ilocBack (calc_rsi
        (List.replicate 119 (PF.num 1) ++ [PF.num 2])).RSI 1 = some (PF.num q)) :=
  ⟨by decide, by decide,
   (c6_defined_at_full_window id
      (List.replicate 119 (PF.num 1) ++ [PF.num 2])
      (List.replicate 119 (PF.num 1) ++ [PF.num 2])
      (List.replicate 119 (PF.num 1) ++ [PF.num 2])
      (List.replicate 120 (PF.num 3)) 120
      (by decide) (by decide) (by decide) (by decide) (by decide)
      (by decide) (by decide)).2.1,
   (c6_defined_at_full_window id
      (List.replicate 119 (PF.num 1) ++ [PF.num 2])
      (List.replicate 119 (PF.num 1) ++ [PF.num 2])
      (List.replicate 119 (PF.num 1) ++ [PF.num 2])
      (List.replicate 120 (PF.num 3)) 120
      (by decide) (by decide) (by decide) (by decide) (by decide)
      (by decide) (by decide)).2.2.2.2.2.2.2.2.2.2.2
      ⟨118, by decide, by decide, by decide⟩⟩
